import Mathlib

/-!
Verification of the kure-sh/generate code generator.

The development shallowly embeds the two source files:
  * `main.ts` — the type compiler (`gen.*`, `emitVersion`, `apiVersion`,
    `resourceBase`, `doc`, `lit`);
  * `syntax.ts` — the module assembly engine (`Module`, `Names`, `Name`,
    `Imports`, `Import`, `Context`).

Modelling conventions:
  * Mutable TS classes become explicit state records threaded through
    `Except String` (TS `throw` becomes `.error`).
  * JS `Map` values become insertion-ordered association lists (a JS `Map`
    iterates in insertion order, deterministically).
  * `Array.prototype.sort` is stable per ES2019; it is modelled by a stable
    insertion sort (`sortLe`), and for the two-valued weight key used in
    `Names.resolve` by the weight-class partition, both of which agree with
    every stable sort.
  * `localeCompare` (ICU root collation under Deno/V8) is modelled by
    `localeLe`: Unicode Collation Algorithm comparison of collation keys
    for the ASCII repertoire the generator emits — punctuation before
    digits before letters, letters compared case-insensitively by base
    letter at primary strength, lowercase before uppercase on a full
    primary tie. Plain code-point comparison (`strLe`) is kept only to
    state what lexicographic order would be; it is not the order
    `localeCompare` produces (e.g. ICU puts `factory` before `NameScope`).
  * JS string truthiness (`""` and `undefined` are falsy) is modelled by
    `strTruthy` on `Option String`.
-/

/-! ## JS string primitives used by the source -/

/-- JS truthiness for an optional string: `undefined` and `""` are falsy. -/
def strTruthy : Option String → Option String
  | some s => if s = "" then none else some s
  | none => none

/-- Hex digit character (lowercase), for JSON `\u00XX` escapes. -/
def hexDigitChar (n : Nat) : Char :=
  if n < 10 then Char.ofNat (48 + n) else Char.ofNat (87 + n)

/-- JSON.stringify escaping of one character. -/
def jsEscapeChar (c : Char) : String :=
  if c = '"' then "\\\""
  else if c = '\\' then "\\\\"
  else if c = '\n' then "\\n"
  else if c = '\r' then "\\r"
  else if c = '\t' then "\\t"
  else if c = '\x08' then "\\b"
  else if c = '\x0c' then "\\f"
  else if c.toNat < 32 then
    "\\u00" ++ String.mk [hexDigitChar (c.toNat / 16), hexDigitChar (c.toNat % 16)]
  else String.singleton c

/-- JSON.stringify of a string value, as used by `lit`, property names,
enum members and import paths. -/
def jsonStr (s : String) : String :=
  "\"" ++ String.join (s.data.map jsEscapeChar) ++ "\""

/-- main.ts `lit`: every call site passes a string. -/
def lit (s : String) : String := jsonStr s

/-- JS whitespace recognised by `trimEnd` (the ASCII part; the schema
descriptions this generator sees are ASCII). -/
def isJsWhitespace (c : Char) : Bool :=
  c = ' ' || c = '\t' || c = '\n' || c = '\r' || c = '\x0b' || c = '\x0c'

/-- JS `String.prototype.trimEnd`. -/
def trimEndStr (s : String) : String :=
  String.mk ((s.data.reverse.dropWhile isJsWhitespace).reverse)

/-- JS `replaceAll("*/", "*\\/")` on a character list (left-to-right,
non-overlapping, exactly as `String.prototype.replaceAll`). -/
def escapeCommentEnd : List Char → List Char
  | '*' :: '/' :: rest => '*' :: '\\' :: '/' :: escapeCommentEnd rest
  | c :: rest => c :: escapeCommentEnd rest
  | [] => []

/-- Test of the regex `^[A-Za-z]\w*$` (gen.property). -/
def isWordChar (c : Char) : Bool := c.isAlpha || c.isDigit || c = '_'

/-- Test of the regex `^[A-Za-z]\w*$` on a whole name. -/
def isIdentName (s : String) : Bool :=
  match s.data with
  | [] => false
  | c :: cs => c.isAlpha && cs.all isWordChar

/-! ## posix path helpers (std path, as used by `Imports.path`) -/

/-- posix `dirname`, adequate for the slash-joined module paths the
generator builds (no trailing slashes). -/
def posixDirname (p : String) : String :=
  let parts := p.splitOn "/"
  if parts.length ≤ 1 then "." else String.intercalate "/" parts.dropLast

/-- posix `basename`. -/
def posixBasename (p : String) : String :=
  (p.splitOn "/").getLastD ""

/-- Non-empty segments of a path; `.` segments vanish under the path
resolution `relative` performs (the inputs here contain no `..`). -/
def pathSegments (p : String) : List String :=
  (p.splitOn "/").filter (fun s => s ≠ "" && s ≠ ".")

/-- Drop the common prefix of two segment lists. -/
def dropCommonPrefix : List String → List String → List String × List String
  | a :: as, b :: bs => if a = b then dropCommonPrefix as bs else (a :: as, b :: bs)
  | as, bs => (as, bs)

/-- posix `relative` for the absolute, already-normalised paths
(`/src/...`) that `Imports.path` passes to it. -/
def posixRelative (f t : String) : String :=
  let p := dropCommonPrefix (pathSegments f) (pathSegments t)
  String.intercalate "/" (List.replicate p.1.length ".." ++ p.2)

/-- Test whether a string starts with the character `.`. -/
def startsWithDot (s : String) : Bool :=
  match s.data with
  | c :: _ => c = '.'
  | [] => false

/-- JS `replaceAll("/", "-")` (node packaging path). -/
def slashToDash (s : String) : String :=
  String.mk (s.data.map (fun c => if c = '/' then '-' else c))

/-! ## The stable sort (`Array.prototype.sort`, stable per ES2019) -/

/-- Stable insertion: the new element goes before the first list element it
compares `le` to; elements already in the list keep their order. -/
def insertLe (le : α → α → Bool) (a : α) : List α → List α
  | [] => [a]
  | b :: l => if le a b then a :: b :: l else b :: insertLe le a l

/-- Stable insertion sort; agrees with every stable sort by `le`, in
particular with the ES2019 `Array.prototype.sort`. -/
def sortLe (le : α → α → Bool) : List α → List α
  | [] => []
  | a :: l => insertLe le a (sortLe le l)

/-- Lexicographic code-point comparison on character lists. -/
def strLeList : List Char → List Char → Bool
  | [], _ => true
  | _ :: _, [] => false
  | a :: as, b :: bs =>
    if a.toNat < b.toNat then true
    else if b.toNat < a.toNat then false
    else strLeList as bs

/-- Lexicographic code-point comparison. This is what the spec calls
"lexicographic" order; it is NOT the order `localeCompare` produces (see
`localeLe` below), and is used only to state lexicographic-order facts. -/
def strLe (a b : String) : Bool := strLeList a.data b.data

/-- Primary collation weight of a character under the ICU root collation
(what `localeCompare` runs under Deno/V8), for the repertoire that can
appear in the member names and import paths this generator renders: ICU
orders punctuation, then symbols, then digits, then letters by base
letter (case-insensitively): space `_ - , ; : ! ? . ( ) [ ] @ * / & # %
^ + < = > | ~ $` digits letters. Characters the generator never emits
into a compared string (quotes, braces, backslash, controls) share a low
default weight. -/
def icuPrimary (c : Char) : Nat :=
  if 97 ≤ c.toNat && c.toNat ≤ 122 then 100 + (c.toNat - 97)
  else if 65 ≤ c.toNat && c.toNat ≤ 90 then 100 + (c.toNat - 65)
  else if 48 ≤ c.toNat && c.toNat ≤ 57 then 70 + (c.toNat - 48)
  else if c = ' ' then 2
  else if c = '_' then 3
  else if c = '-' then 4
  else if c = ',' then 5
  else if c = ';' then 6
  else if c = ':' then 7
  else if c = '!' then 8
  else if c = '?' then 9
  else if c = '.' then 10
  else if c = '(' then 13
  else if c = ')' then 14
  else if c = '[' then 15
  else if c = ']' then 16
  else if c = '@' then 19
  else if c = '*' then 20
  else if c = '/' then 21
  else if c = '&' then 23
  else if c = '#' then 24
  else if c = '%' then 25
  else if c = '^' then 27
  else if c = '+' then 28
  else if c = '<' then 29
  else if c = '=' then 30
  else if c = '>' then 31
  else if c = '|' then 32
  else if c = '~' then 33
  else if c = '$' then 34
  else 1

/-- Case (tertiary) collation weight: the ICU root collation sorts
lowercase before uppercase when the primary weights fully tie. -/
def icuTertiary (c : Char) : Nat :=
  if 65 ≤ c.toNat && c.toNat ≤ 90 then 1 else 0

/-- The collation key of a string: the primary weight sequence, a `0`
level separator, then the case weight sequence. Comparing keys
lexicographically compares whole primary sequences first and breaks a
full primary tie by case — the Unicode Collation Algorithm comparison
`localeCompare` performs on this repertoire (ASCII has no secondary
accent distinctions). -/
def icuKey (s : String) : List Nat :=
  s.data.map icuPrimary ++ 0 :: s.data.map icuTertiary

/-- Lexicographic comparison of weight lists. -/
def natLeList : List Nat → List Nat → Bool
  | [], _ => true
  | _ :: _, [] => false
  | a :: as, b :: bs =>
    if a < b then true
    else if b < a then false
    else natLeList as bs

/-- `a.localeCompare(b) <= 0` under the ICU root collation: compare the
collation keys. -/
def localeLe (a b : String) : Bool := natLeList (icuKey a) (icuKey b)

/-! ## Injectivity of the decimal numeral (for the `name_2`, `name_3`, ...
suffixes produced by `Names.resolve`) -/

/-- Value of a decimal digit character. -/
def charDigitVal (c : Char) : Nat := c.toNat - 48

/-- Interpret a digit list most-significant-first: value and scale. -/
def valPow : List Char → Nat × Nat
  | [] => (0, 1)
  | c :: cs => ((charDigitVal c) * (valPow cs).2 + (valPow cs).1, 10 * (valPow cs).2)

/-! ## Schema model (the kure spec types consumed by the generator) -/

/-- APIGroupIdentifier: optional group name and module path. -/
structure APIGroupIdentifier where
  name : Option String
  module : Option String
deriving DecidableEq

/-- APIDependency: package name and version. -/
structure APIDependency where
  package : String
  version : String
deriving DecidableEq

/-- Scope of a TypeReference target: group identity, version, optional
package (absent or empty package means a local reference path). -/
structure RefScope where
  group : APIGroupIdentifier
  version : String
  package : Option String
deriving DecidableEq

/-- TypeReference target: optional scope plus referenced name. -/
structure RefTarget where
  scope : Option RefScope
  name : String
deriving DecidableEq

/-- DefinitionMeta: description and deprecated flag. -/
structure DefinitionMeta where
  description : Option String
  deprecated : Bool
deriving DecidableEq

mutual
/-- The Type union of the schema model (`resource` carries its properties
and its metadata scope string). -/
inductive SchemaType where
  | string (enum : Option (List String))
  | integer
  | float
  | boolean
  | array (values : SchemaType)
  | map (values : SchemaType)
  | object (properties : List SchemaProperty) (inherit : List RefTarget)
  | union (values : List SchemaType)
  | optional (value : SchemaType)
  | reference (target : RefTarget)
  | resource (properties : List SchemaProperty) (scope : String)
  | unknown

/-- A Property: name, required flag, value type, metadata. -/
inductive SchemaProperty where
  | mk (name : String) (required : Bool) (value : SchemaType) (meta : DefinitionMeta)
end

/-- Name of a property. -/
def SchemaProperty.name : SchemaProperty → String
  | .mk n _ _ _ => n

/-- Required flag of a property. -/
def SchemaProperty.required : SchemaProperty → Bool
  | .mk _ r _ _ => r

/-- Value type of a property. -/
def SchemaProperty.value : SchemaProperty → SchemaType
  | .mk _ _ v _ => v

/-- Metadata of a property. -/
def SchemaProperty.meta : SchemaProperty → DefinitionMeta
  | .mk _ _ _ m => m

/-- A Definition: named top-level schema entry. -/
structure Definition where
  name : String
  meta : DefinitionMeta
  value : SchemaType

/-- The APIGroupVersion schema value. -/
structure APIGroupVersion where
  group : APIGroupIdentifier
  version : String
  dependencies : List APIDependency
  definitions : List Definition

/-- The engine selector. -/
inductive Engine where
  | deno
  | node
deriving DecidableEq

/-- The render Context (syntax.ts `Context`): schema data plus the path of
the module under generation and the engine. -/
structure Context where
  group : APIGroupIdentifier
  version : String
  dependencies : List APIDependency
  modulePath : String
  engine : Engine

/-- Context.apiVersion: `group/version` when the group is named (JS
truthiness: an empty group name falls back to the bare version). -/
def Context.apiVersion (ctx : Context) : String :=
  match strTruthy ctx.group.name with
  | some n => n ++ "/" ++ ctx.version
  | none => ctx.version

/-- Context dependency lookup (`dependencies.get(pkg)`): the Map is built
from the dependency list, later entries overwriting earlier ones. -/
def lookupDep (deps : List APIDependency) (pkg : String) : Option APIDependency :=
  deps.reverse.find? (fun d => decide (d.package = pkg))

/-! ## Names (syntax.ts `Names` and `Name`) -/

/-- The usage kind of a registered name. -/
inductive NameUsage where
  | declaration
  | imported
deriving DecidableEq

/-- Name.usages: declaration before import. -/
def usageWeight : NameUsage → Nat
  | .declaration => 0
  | .imported => 1

/-- The string interpolated into the duplicate-registration error. -/
def usageStr : NameUsage → String
  | .declaration => "declaration"
  | .imported => "import"

/-- Name.isConflict: only a second declaration conflicts. -/
def usageConflict (existing incoming : NameUsage) : Bool :=
  (existing = NameUsage.declaration && incoming = NameUsage.declaration : Bool)

/-- The identifier table: raw name to its registrations, both in insertion
order (a JS Map iterates in insertion order). -/
structure Names where
  bound : List (String × List NameUsage)

/-- Registrations recorded for a raw name. -/
def Names.group (ns : Names) (token : String) : List NameUsage :=
  match ns.bound.find? (fun e => decide (e.1 = token)) with
  | some e => e.2
  | none => []

/-- Append a registration to the group of a raw name (creating the group at
the end of the table when absent, like `Map.set`). -/
def addToBound (bound : List (String × List NameUsage)) (token : String)
    (usage : NameUsage) : List (String × List NameUsage) :=
  match bound with
  | [] => [(token, [usage])]
  | e :: rest =>
    if e.1 = token then (e.1, e.2 ++ [usage]) :: rest
    else e :: addToBound rest token usage

/-- Names.add: reject a conflicting registration, otherwise append and
return the registration index inside the group (the handle the returned
`Name` object stands for). -/
def Names.add (ns : Names) (token : String) (usage : NameUsage) :
    Except String (Names × Nat) :=
  let grp := ns.group token
  if grp.any (fun existing => usageConflict existing usage) then
    .error ("Duplicate " ++ usageStr usage ++ " of " ++ token)
  else
    .ok (⟨addToBound ns.bound token usage⟩, grp.length)

/-- Names.resolve sorts each group with `(a, b) => a.weight - b.weight`;
the ES2019 sort is stable and the weight takes only the values 0
(declaration) and 1 (import), so the sorted order is the weight-0 entries
followed by the weight-1 entries, each in registration order. -/
def sortRegs (regs : List (Nat × NameUsage)) : List (Nat × NameUsage) :=
  regs.filter (fun r => decide (usageWeight r.2 = 0)) ++
    regs.filter (fun r => decide (usageWeight r.2 ≠ 0))

/-- The spelling assigned to sorted position `i` of the group of raw name
`token`: position 0 keeps the raw name, position 1 appends `_`, position
`i ≥ 2` appends `_i`. -/
def spell (token : String) (i : Nat) : String :=
  if i = 0 then token else if i = 1 then token ++ "_" else token ++ "_" ++ Nat.repr i

/-- The resolved spelling of the registration with index `idx` in the group
of `token` whose registrations are `regs`: its position in the stable
weight-sorted order decides the suffix. -/
def resolvedSpelling (token : String) (regs : List NameUsage) (idx : Nat) : String :=
  spell token ((sortRegs regs.enum).findIdx (fun r => decide (r.1 = idx)))

/-- Names.getDeclared: the first declaration-usage registration of a raw
name; an error when none is declared (the TS error message interpolates a
shadowed undefined variable; the text is immaterial). -/
def Names.getDeclared (ns : Names) (token : String) : Except String String :=
  let regs := ns.group token
  match regs.findIdx? (fun u => decide (u = NameUsage.declaration)) with
  | some idx => .ok (resolvedSpelling token regs idx)
  | none => .error ("name " ++ token ++ " not declared in module")

/-- Whether a raw name has a declaration-usage registration. -/
def Names.hasDecl (ns : Names) (token : String) : Bool :=
  (ns.group token).any (fun u => decide (u = NameUsage.declaration))

/-! ## Imports (syntax.ts `Imports` and `Import`) -/

/-- An ImportSource tuple: `["api", name, path?]`, `["lib", name, path?]`
or `["local", path]`. -/
inductive ImportSource where
  | api (name : String) (path : Option String)
  | lib (name : String) (path : Option String)
  | loc (path : String)
deriving DecidableEq

/-- Import.urn: the module URN keying an import source. -/
def ImportSource.urn : ImportSource → String
  | .api name path =>
    "kure:api:" ++ name ++ (match path with | some p => ":" ++ p | none => "")
  | .lib name path =>
    "kure:lib:" ++ name ++ (match path with | some p => ":" ++ p | none => "")
  | .loc path => "/" ++ path

/-- Whether a source is local (src[0] === "local"). -/
def ImportSource.isLoc : ImportSource → Bool
  | .loc _ => true
  | _ => false

/-- ImportOptions: `{ as?, type? }` (both optional). -/
structure ImportOptions where
  asName : Option String := none
  typeOnly : Option Bool := none
deriving DecidableEq

/-- The state of one `Import` object: member name, sticky alias
(`options?.as || undefined`, so never the empty string), type-only flag. -/
structure ImportRec where
  member : String
  asName : Option String
  typeOnly : Bool
deriving DecidableEq

/-- Import constructor. -/
def mkImportRec (member : String) (options : Option ImportOptions) : ImportRec :=
  { member := member
    asName := strTruthy (options.bind (fun o => o.asName))
    typeOnly := (options.bind (fun o => o.typeOnly)).getD false }

/-- Merge of a repeated `use` with present options: a value-requiring usage
clears the type-only flag; the alias is sticky on first assignment. -/
def mergeImportRec (m : ImportRec) (o : ImportOptions) : ImportRec :=
  let m1 := if m.typeOnly && !(o.typeOnly.getD false) then
    { m with typeOnly := false } else m
  if m1.asName = none && (strTruthy o.asName).isSome then
    { m1 with asName := strTruthy o.asName } else m1

/-- One imported module: its source and its members keyed by member name,
in insertion order. -/
structure ImportedModule where
  src : ImportSource
  members : List (String × ImportRec)

/-- The import table: modules keyed by URN, in insertion order. -/
structure Imports where
  modules : List (String × ImportedModule)

/-- Imports.module: get or insert (at the end) the entry for a source. -/
def getOrInsertModule (modules : List (String × ImportedModule)) (src : ImportSource) :
    List (String × ImportedModule) :=
  match modules with
  | [] => [(src.urn, ⟨src, []⟩)]
  | e :: rest =>
    if e.1 = src.urn then e :: rest else e :: getOrInsertModule rest src

/-- Update the member list of the module with the given URN. -/
def updateModuleMembers (modules : List (String × ImportedModule)) (urn : String)
    (f : List (String × ImportRec) → List (String × ImportRec)) :
    List (String × ImportedModule) :=
  modules.map (fun e => if e.1 = urn then (e.1, ⟨e.2.src, f e.2.members⟩) else e)

/-- The `members.get(name)` lookup inside the module keyed by a URN. -/
def findMemberIn (modules : List (String × ImportedModule)) (urn name : String) :
    Option (String × ImportRec) :=
  match modules.find? (fun e => decide (e.1 = urn)) with
  | some e => e.2.members.find? (fun m => decide (m.1 = name))
  | none => none

/-- Look up a member record. -/
def Imports.member (imps : Imports) (urn member : String) : Option ImportRec :=
  (findMemberIn imps.modules urn member).map (fun m => m.2)

/-- Imports.use: dedup by (source URN, member); create the member on first
use, merge options on repeated use (no merge at all when `options` is not
passed). The returned binding is the stable (urn, member) handle. -/
def Imports.use (imps : Imports) (src : ImportSource) (name : String)
    (options : Option ImportOptions) : Imports :=
  let modules := getOrInsertModule imps.modules src
  match findMemberIn modules src.urn name with
  | none =>
    ⟨updateModuleMembers modules src.urn (fun ms => ms ++ [(name, mkImportRec name options)])⟩
  | some _ =>
    match options with
    | some o =>
      ⟨updateModuleMembers modules src.urn
        (fun ms => ms.map (fun e => if e.1 = name then (e.1, mergeImportRec e.2 o) else e))⟩
    | none => ⟨modules⟩

/-- Import.apply registers `this.as ?? this.member` as an import-usage
name; `Imports.apply` does so for every member of every module, in
insertion order, recording each (urn, member) handle with the raw name and
registration index its `Name` object stands for. -/
def Imports.applyAll (imps : Imports) (ns : Names) :
    Except String (Names × List ((String × String) × (String × Nat))) := do
  let mut acc := ns
  let mut asg : List ((String × String) × (String × Nat)) := []
  for mentry in imps.modules do
    for mem in mentry.2.members do
      let token := mem.2.asName.getD mem.2.member
      let r ← acc.add token NameUsage.imported
      acc := r.1
      asg := asg ++ [((mentry.1, mem.1), (token, r.2))]
  return (acc, asg)

/-- Imports.path: per-render path computation. A local source is made
relative to the importing module's directory with an explicit `./` or
`../` prefix; a remote source composes a hosted URL (deno) or a scoped
bare specifier (node). For the deno engine an "api" source takes its
version from the dependency map ("lib" sources are pinned to 0.1), and
the package `kubernetes` with a truthy version is replaced by the empty
package name. -/
def srcPath (src : ImportSource) (ctx : Context) : String :=
  let localDir := "/src/" ++ posixDirname ctx.modulePath
  match src with
  | .loc p =>
    let dest := "/src/" ++ p
    let dir0 := posixRelative localDir (posixDirname dest)
    let dir1 := if dir0 = "" then "." else dir0
    let dir := if startsWithDot dir1 then dir1 else "./" ++ dir1
    dir ++ "/" ++ posixBasename dest
  | .api pkg path =>
    match ctx.engine with
    | .deno =>
      let version := strTruthy ((lookupDep ctx.dependencies pkg).map (fun d => d.version))
      let pkg1 := if pkg = "kubernetes" && version.isSome then "" else pkg
      let target := pkg1 ++ (match version with | some v => "@" ++ v | none => "")
      "https://kure.sh/api/" ++ target ++ "/" ++ ((strTruthy path).getD "mod.ts")
    | .node =>
      "@kure-api/" ++ slashToDash pkg ++
        (match strTruthy path with | some p => "/" ++ p | none => "")
  | .lib pkg path =>
    match ctx.engine with
    | .deno =>
      let version := strTruthy (some "0.1")
      let pkg1 := if pkg = "kubernetes" && version.isSome then "" else pkg
      let target := pkg1 ++ (match version with | some v => "@" ++ v | none => "")
      "https://kure.sh/lib/" ++ target ++ "/" ++ ((strTruthy path).getD "mod.ts")
    | .node =>
      "@kure-lib/" ++ slashToDash pkg ++
        (match strTruthy path with | some p => "/" ++ p | none => "")

/-! ## Generator plans

A TS generator is a closure `apply(module) → (ctx) → string`; the captures
of the returned render closure become explicit plan values: a binding
handle for every `module.name` / `module.get` / `module.import` call made
during the apply phase, and the compiled shape of the type. -/

/-- A deferred Binding handle. -/
inductive BindingPlan where
  | nameAt (token : String) (idx : Nat)
  | getDecl (token : String)
  | importedAt (urn : String) (member : String)

mutual
/-- The compiled shape of a type after its apply phase. -/
inductive TypePlan where
  | strEnum (enum : Option (List String))
  | number
  | boolean
  | unknownType
  | array (v : TypePlan)
  | map (v : TypePlan)
  | object (parents : List BindingPlan) (props : List PropPlan)
  | union (vs : List TypePlan)
  | optional (v : TypePlan)
  | ref (b : BindingPlan)

/-- The compiled shape of one property: rendered name (quoted when not an
identifier), the optional marker, metadata, value shape. -/
inductive PropPlan where
  | mk (rname : String) (optMark : Bool) (meta : DefinitionMeta) (value : TypePlan)
end

/-- Value shape of a property plan. -/
def PropPlan.value : PropPlan → TypePlan
  | .mk _ _ _ v => v

/-- Rendered name of a property plan. -/
def PropPlan.rname : PropPlan → String
  | .mk n _ _ _ => n

/-- Optional marker of a property plan. -/
def PropPlan.optMark : PropPlan → Bool
  | .mk _ o _ _ => o

/-- Metadata of a property plan. -/
def PropPlan.meta : PropPlan → DefinitionMeta
  | .mk _ _ m _ => m

/-- gen.reference: a local target resolves through `module.get`; a scoped
target resolves through the import table (`type: true`), from the api
package when one is named (truthy) and from a local path otherwise. -/
def applyRef (target : RefTarget) (imps : Imports) : Imports × BindingPlan :=
  match target.scope with
  | none => (imps, BindingPlan.getDecl target.name)
  | some sc =>
    let path := (match strTruthy sc.group.module with
      | some m => m ++ "/"
      | none => "") ++ sc.version ++ ".ts"
    let src := match strTruthy sc.package with
      | some pkg => ImportSource.api pkg (some path)
      | none => ImportSource.loc path
    (imps.use src target.name (some { typeOnly := some true }),
      BindingPlan.importedAt src.urn target.name)

/-- gen.property: the rendered member name is quoted unless it matches
`^[A-Za-z]\w*$`; the optional marker is the negated required flag. -/
def propRenderName (n : String) : String :=
  if isIdentName n then n else jsonStr n

mutual
/-- gen.type + the apply phase of the resulting generator: registers
the import demand of the type and returns its render shape. The `decl` flag is
gen.type's `declaration` parameter: only an object consults it (a declared
object drops inline parents), and every recursive call passes `false`. -/
def applyType (decl : Bool) (t : SchemaType) (imps : Imports) :
    Except String (Imports × TypePlan) :=
  match t with
  | .string enum => .ok (imps, TypePlan.strEnum enum)
  | .integer => .ok (imps, TypePlan.number)
  | .float => .ok (imps, TypePlan.number)
  | .boolean => .ok (imps, TypePlan.boolean)
  | .array v => do
    let r ← applyType false v imps
    .ok (r.1, TypePlan.array r.2)
  | .map v => do
    let r ← applyType false v imps
    .ok (r.1, TypePlan.map r.2)
  | .object props inherit =>
    let parentTargets := if inherit.length ≠ 0 && !decl then inherit else []
    let st := parentTargets.foldl
      (fun (acc : Imports × List BindingPlan) tg =>
        let r := applyRef tg acc.1
        (r.1, acc.2 ++ [r.2]))
      (imps, [])
    do
      let r ← applyProps props st.1
      .ok (r.1, TypePlan.object st.2 r.2)
  | .union vs => do
    let r ← applyTypes vs imps
    .ok (r.1, TypePlan.union r.2)
  | .optional v => do
    let r ← applyType false v imps
    .ok (r.1, TypePlan.optional r.2)
  | .reference target =>
    let r := applyRef target imps
    .ok (r.1, TypePlan.ref r.2)
  | .resource _ _ => .error "\"resource\" type not allowed in gen.type()"
  | .unknown => .ok (imps, TypePlan.unknownType)

/-- Apply phase over a list of union members, in order. -/
def applyTypes (ts : List SchemaType) (imps : Imports) :
    Except String (Imports × List TypePlan) :=
  match ts with
  | [] => .ok (imps, [])
  | t :: rest => do
    let r ← applyType false t imps
    let rs ← applyTypes rest r.1
    .ok (rs.1, r.2 :: rs.2)

/-- Apply phase over a property list, in order. -/
def applyProps (ps : List SchemaProperty) (imps : Imports) :
    Except String (Imports × List PropPlan) :=
  match ps with
  | [] => .ok (imps, [])
  | p :: rest => do
    let r ← applyProp p imps
    let rs ← applyProps rest r.1
    .ok (rs.1, r.2 :: rs.2)

/-- Apply phase of gen.property. -/
def applyProp (p : SchemaProperty) (imps : Imports) :
    Except String (Imports × PropPlan) :=
  match p with
  | .mk n req v meta => do
    let r ← applyType false v imps
    .ok (r.1, PropPlan.mk (propRenderName n) (!req) meta r.2)
end

/-! ## Rendering -/

/-- main.ts `doc`: a doc block from a description (split into lines after
`trimEnd`; JS truthiness drops an empty description) plus a `@deprecated`
marker, each line prefixed and with `*/` escaped; empty when there is
nothing to say. -/
def docText (meta : DefinitionMeta) (indent : Nat) : String :=
  let lines := (match strTruthy meta.description with
    | some d => (trimEndStr d).splitOn "\n"
    | none => []) ++ (if meta.deprecated then ["@deprecated"] else [])
  if lines.length = 0 then ""
  else
    let pre := String.join (List.replicate indent "  ")
    pre ++ "/**\n" ++
      String.join (lines.map (fun l => pre ++ " * " ++ String.mk (escapeCommentEnd l.data) ++ "\n")) ++
      pre ++ " */\n"

/-- Rendering environment after the resolve phase: the final identifier
table and the (urn, member) to Name-handle assignment produced by
`Imports.applyAll`. -/
structure RenderEnv where
  names : Names
  asg : List ((String × String) × (String × Nat))

/-- Resolve a binding handle to its final spelling (`Name.token`,
`Names.getDeclared` and `Import.token`). -/
def bindingText (env : RenderEnv) : BindingPlan → Except String String
  | .nameAt token idx => .ok (resolvedSpelling token (env.names.group token) idx)
  | .getDecl token => env.names.getDeclared token
  | .importedAt urn member =>
    match env.asg.find? (fun e => decide (e.1 = (urn, member))) with
    | some e => .ok (resolvedSpelling e.2.1 (env.names.group e.2.1) e.2.2)
    | none => .error ("import of " ++ member ++ " not yet named")

mutual
/-- The render closure of gen.type: produce the target-language text of a
compiled type shape. -/
def renderType (env : RenderEnv) (t : TypePlan) : Except String String :=
  match t with
  | .strEnum enum =>
    match enum with
    | some vs => .ok (String.intercalate " | " (vs.map jsonStr))
    | none => .ok "string"
  | .number => .ok "number"
  | .boolean => .ok "boolean"
  | .unknownType => .ok "unknown"
  | .array v => do
    let s ← renderType env v
    .ok ("Array<" ++ s ++ ">")
  | .map v => do
    let s ← renderType env v
    .ok ("Record<string, " ++ s ++ ">")
  | .object parents props => do
    let ps ← renderBindings env parents
    let ss ← renderProps env props
    .ok (String.intercalate " & " ps ++
      "\x7b\n" ++ String.intercalate "\n" ss ++ "\n\x7d")
  | .union vs => do
    let ss ← renderTypes env vs
    .ok (String.intercalate " | " ss)
  | .optional v => do
    let s ← renderType env v
    .ok (s ++ " | null")
  | .ref b => bindingText env b

/-- Render a list of union member shapes. -/
def renderTypes (env : RenderEnv) (ts : List TypePlan) : Except String (List String) :=
  match ts with
  | [] => .ok []
  | t :: rest => do
    let s ← renderType env t
    let ss ← renderTypes env rest
    .ok (s :: ss)

/-- Render a list of binding handles. -/
def renderBindings (env : RenderEnv) (bs : List BindingPlan) : Except String (List String) :=
  match bs with
  | [] => .ok []
  | b :: rest => do
    let s ← bindingText env b
    let ss ← renderBindings env rest
    .ok (s :: ss)

/-- Render a list of property shapes. -/
def renderProps (env : RenderEnv) (ps : List PropPlan) : Except String (List String) :=
  match ps with
  | [] => .ok []
  | p :: rest => do
    let s ← renderProp env p
    let ss ← renderProps env rest
    .ok (s :: ss)

/-- The render closure of gen.property. -/
def renderProp (env : RenderEnv) (p : PropPlan) : Except String String :=
  match p with
  | .mk rname optMark meta v => do
    let s ← renderType env v
    .ok (docText meta 1 ++ "  " ++ rname ++ (if optMark then "?" else "") ++
      ": " ++ s ++ ";")
end

/-! ## Rendering of the import block (Imports.render, Import.render) -/

/-- Import.render: a member inside one statement; inside an `import type`
statement a value-required member is an internal invariant violation; in a
value statement a still-type-only member gets an inline `type` marker; a
member whose resolved name differs from the exported member name renders
with an `as` alias. -/
def renderImportEntry (env : RenderEnv) (urn : String) (r : ImportRec)
    (inTypeImport : Bool) : Except String String :=
  if inTypeImport && !r.typeOnly then
    .error ("cannot import value " ++ r.member ++ " via `import type`")
  else do
    let tok ← bindingText env (BindingPlan.importedAt urn r.member)
    .ok ((if r.typeOnly && !inTypeImport then "type " else "") ++
      (if tok = r.member then tok else r.member ++ " as " ++ tok))

/-- Render every member of one statement. -/
def renderEntries (env : RenderEnv) (urn : String) (rs : List ImportRec)
    (inTypeImport : Bool) : Except String (List String) :=
  match rs with
  | [] => .ok []
  | r :: rest => do
    let s ← renderImportEntry env urn r inTypeImport
    let ss ← renderEntries env urn rest inTypeImport
    .ok (s :: ss)

/-- The members of one statement, sorted by member name in collation
order (`(a, b) => a.member.localeCompare(b.member)`, modelled by
`localeLe`). -/
def statementMembers (m : ImportedModule) : List ImportRec :=
  sortLe (fun a b => localeLe a.member b.member) (m.members.map (fun e => e.2))

/-- One import statement: `import type` exactly when every member of the
source is still type-only at resolve time. -/
def renderStatement (env : RenderEnv) (urn : String) (m : ImportedModule)
    (path : String) : Except String String := do
  let sorted := statementMembers m
  let allType := sorted.all (fun i => i.typeOnly)
  let entries ← renderEntries env urn sorted allType
  let stmt := if allType then
      "import type \x7b " ++ String.intercalate ", " entries ++ " \x7d"
    else
      "import \x7b " ++ String.intercalate ", " entries ++ " \x7d"
  .ok (stmt ++ " from " ++ jsonStr path ++ ";")

/-- The resolved path of a URN (the `paths` map of Imports.render). -/
def pathOfUrn (paths : List (String × String)) (urn : String) : String :=
  match paths.find? (fun p => decide (p.1 = urn)) with
  | some p => p.2
  | none => ""

/-- Render the statements of one sorted bucket. -/
def renderGroupStatements (imps : Imports) (env : RenderEnv)
    (paths : List (String × String)) (urns : List String) :
    Except String (List String) :=
  match urns with
  | [] => .ok []
  | urn :: rest => do
    let s ← (match imps.modules.find? (fun e => decide (e.1 = urn)) with
      | some e => renderStatement env urn e.2 (pathOfUrn paths urn)
      | none => .error "unreachable")
    let ss ← renderGroupStatements imps env paths rest
    .ok (s :: ss)

/-- The remote then local URN buckets, each sorted by resolved path in
collation order (`paths.get(a)!.localeCompare(paths.get(b)!)`). -/
def importGroups (imps : Imports) (paths : List (String × String)) :
    List (List String) :=
  let remote := (imps.modules.filter (fun e => !e.2.src.isLoc)).map (fun e => e.1)
  let locals := (imps.modules.filter (fun e => e.2.src.isLoc)).map (fun e => e.1)
  ([remote, locals].filter (fun g => g.length ≠ 0)).map
    (fun g => sortLe (fun a b => localeLe (pathOfUrn paths a) (pathOfUrn paths b)) g)

/-- The `paths` map of Imports.render: resolved path per URN. -/
def importPaths (imps : Imports) (ctx : Context) : List (String × String) :=
  imps.modules.map (fun e => (e.1, srcPath e.2.src ctx))

/-- Imports.render: remote bucket first, then local; statements sorted by
resolved path inside a bucket, buckets separated by a blank line. -/
def renderImportsBlock (imps : Imports) (env : RenderEnv) (ctx : Context) :
    Except String String := do
  let paths := importPaths imps ctx
  let groups := importGroups imps paths
  let texts ← (do
    let mut acc : List String := []
    for g in groups do
      let ss ← renderGroupStatements imps env paths g
      acc := acc ++ [String.intercalate "\n" ss]
    return acc)
  .ok (String.intercalate "\n\n" texts)

/-! ## Definition-level compilation -/

/-- Member plans: the captures of each member-level render closure. -/
inductive MemberPlan where
  | apiVersionP (typeB valueB : BindingPlan)
  | resourceBaseP (apiVersionB resourceB baseB scopeB metadataB : BindingPlan)
  | resourceP (d : Definition) (scope : String)
      (factoryB listBaseB apiVersionB apiResourceB nameB listB : BindingPlan)
      (obj : TypePlan)
  | interfaceP (d : Definition) (nameB : BindingPlan) (obj : TypePlan)
      (parents : List BindingPlan)
  | reexportP (d : Definition) (nameB : Option BindingPlan) (refB : BindingPlan)
  | aliasP (d : Definition) (nameB : BindingPlan) (v : TypePlan)

/-- Whether a type is a resource. -/
def isResourceVal : SchemaType → Bool
  | .resource _ _ => true
  | _ => false

/-- Whether a type is a reference. -/
def isRefVal : SchemaType → Bool
  | .reference _ => true
  | _ => false

/-- The filter `p !== metaProperty` over the found first property named
"metadata": drops exactly that occurrence. -/
def removeFirstMeta : List SchemaProperty → List SchemaProperty
  | [] => []
  | p :: rest => if p.name = "metadata" then rest else p :: removeFirstMeta rest

mutual
/-- The build-stage errors of gen.type: a nested `resource` type is fatal
when the generator closure is constructed, before any apply runs. -/
def checkType : SchemaType → Except String Unit
  | .array v => checkType v
  | .map v => checkType v
  | .optional v => checkType v
  | .object props _ => checkProps props
  | .union vs => checkTypes vs
  | .resource _ _ => .error "\"resource\" type not allowed in gen.type()"
  | _ => .ok ()

/-- Build-stage check of a list of union members. -/
def checkTypes : List SchemaType → Except String Unit
  | [] => .ok ()
  | t :: rest => do
    checkType t
    checkTypes rest

/-- Build-stage check of a property list. -/
def checkProps : List SchemaProperty → Except String Unit
  | [] => .ok ()
  | p :: rest => do
    checkProp p
    checkProps rest

/-- Build-stage check of one property. -/
def checkProp : SchemaProperty → Except String Unit
  | .mk _ _ v _ => checkType v
end

/-- The build stage of gen.definition: gen.resource requires a property
named "metadata" holding a reference; the remaining properties (and every
other definition shape) are compiled by gen.type eagerly. -/
def checkDefinition (d : Definition) : Except String Unit :=
  match d.value with
  | .resource props _ =>
    (match props.find? (fun p => decide (p.name = "metadata")) with
    | none => .error (d.name ++ ": expected metadata reference property")
    | some mp =>
      if isRefVal mp.value then checkProps (removeFirstMeta props)
      else .error (d.name ++ ": expected metadata reference property"))
  | .object props _ => checkProps props
  | .reference _ => .ok ()
  | v => checkType v

/-- Build the definition members in order (emitVersion's add loop). -/
def checkDefinitions : List Definition → Except String Unit
  | [] => .ok ()
  | d :: rest => do
    checkDefinition d
    checkDefinitions rest

/-- resourceBase: derived from the first resource definition; its first
property that is named "metadata" and holds a reference supplies the
metadata type of the synthetic base alias; a first resource without one is
a fatal configuration error. No resource definition means no base alias. -/
def resourceBaseCheck (defs : List Definition) : Except String (Option RefTarget) :=
  match defs.find? (fun d => isResourceVal d.value) with
  | none => .ok none
  | some rd =>
    match rd.value with
    | .resource props _ =>
      (match props.find? (fun p => decide (p.name = "metadata") && isRefVal p.value) with
      | some mp =>
        (match mp.value with
        | .reference tgt => .ok (some tgt)
        | _ => .error "unreachable")
      | none => .error ("Resource " ++ rd.name ++ " has no metadata field"))
    | _ => .error "unreachable"

/-- The three module members of a generation: the synthetic APIVersion
generator, the synthetic resource base (when some definition is a
resource), then one member per definition, in order. -/
inductive ModuleMember where
  | apiVersionMember
  | resourceBaseMember (metaTarget : RefTarget)
  | defMember (d : Definition)

/-- The lib:schema import source used by resourceBase and gen.resource. -/
def schemaSrc : ImportSource := ImportSource.lib "schema" none

/-- The apply phase of gen.definition (dispatch on the value tag; each
branch registers exactly the identifiers and imports its TS closure
registers, in the same order). -/
def applyDefinition (d : Definition) (st : Names × Imports) :
    Except String ((Names × Imports) × MemberPlan) :=
  match d.value with
  | .resource props scope =>
    let imps1 := st.2.use schemaSrc "factory" none
    let imps2 := imps1.use schemaSrc "ResourceList" (some { typeOnly := some true })
    (match props.find? (fun p => decide (p.name = "metadata")) with
    | none => .error (d.name ++ ": expected metadata reference property")
    | some mp =>
      if isRefVal mp.value then do
        let r1 ← st.1.add d.name NameUsage.declaration
        let r2 ← r1.1.add (d.name ++ "List") NameUsage.declaration
        let ro ← applyType false (SchemaType.object (removeFirstMeta props) []) imps2
        .ok ((r2.1, ro.1), MemberPlan.resourceP d scope
          (BindingPlan.importedAt schemaSrc.urn "factory")
          (BindingPlan.importedAt schemaSrc.urn "ResourceList")
          (BindingPlan.getDecl "apiVersion") (BindingPlan.getDecl "Resource")
          (BindingPlan.nameAt d.name r1.2)
          (BindingPlan.nameAt (d.name ++ "List") r2.2) ro.2)
      else .error (d.name ++ ": expected metadata reference property"))
  | .object props inherit => do
    let r1 ← st.1.add d.name NameUsage.declaration
    let ro ← applyType true (SchemaType.object props inherit) st.2
    let pr := inherit.foldl
      (fun (acc : Imports × List BindingPlan) tg =>
        let r := applyRef tg acc.1
        (r.1, acc.2 ++ [r.2]))
      (ro.1, [])
    .ok ((r1.1, pr.1), MemberPlan.interfaceP d (BindingPlan.nameAt d.name r1.2) ro.2 pr.2)
  | .reference tgt =>
    if d.name = tgt.name then
      let rr := applyRef tgt st.2
      .ok ((st.1, rr.1), MemberPlan.reexportP d none rr.2)
    else do
      let r1 ← st.1.add d.name NameUsage.declaration
      let rr := applyRef tgt st.2
      .ok ((r1.1, rr.1),
        MemberPlan.reexportP d (some (BindingPlan.nameAt d.name r1.2)) rr.2)
  | v => do
    let r1 ← st.1.add d.name NameUsage.declaration
    let ro ← applyType true v st.2
    .ok ((r1.1, ro.1), MemberPlan.aliasP d (BindingPlan.nameAt d.name r1.2) ro.2)

/-- The apply phase of one module member. -/
def applyMember (m : ModuleMember) (st : Names × Imports) :
    Except String ((Names × Imports) × MemberPlan) :=
  match m with
  | .apiVersionMember => do
    let r1 ← st.1.add "APIVersion" NameUsage.declaration
    let r2 ← r1.1.add "apiVersion" NameUsage.declaration
    .ok ((r2.1, st.2), MemberPlan.apiVersionP
      (BindingPlan.nameAt "APIVersion" r1.2) (BindingPlan.nameAt "apiVersion" r2.2))
  | .resourceBaseMember tgt => do
    let r1 ← st.1.add "Resource" NameUsage.declaration
    let imps1 := st.2.use schemaSrc "Resource" (some { typeOnly := some true })
    let imps2 := imps1.use schemaSrc "NameScope" (some { typeOnly := some true })
    let rr := applyRef tgt imps2
    .ok ((r1.1, rr.1), MemberPlan.resourceBaseP
      (BindingPlan.getDecl "APIVersion")
      (BindingPlan.nameAt "Resource" r1.2)
      (BindingPlan.importedAt schemaSrc.urn "Resource")
      (BindingPlan.importedAt schemaSrc.urn "NameScope") rr.2)
  | .defMember d => applyDefinition d st

/-- The apply loop of Module.render over the member list. -/
def applyMembers (ms : List ModuleMember) (st : Names × Imports) :
    Except String ((Names × Imports) × List MemberPlan) :=
  match ms with
  | [] => .ok (st, [])
  | m :: rest => do
    let r ← applyMember m st
    let rs ← applyMembers rest r.1
    .ok (rs.1, r.2 :: rs.2)

/-- The render closure of one module member. -/
def renderMember (env : RenderEnv) (ctx : Context) (p : MemberPlan) :
    Except String String :=
  match p with
  | .apiVersionP tB vB => do
    let t ← bindingText env tB
    let v ← bindingText env vB
    .ok ("export type " ++ t ++ " = " ++ lit ctx.apiVersion ++ ";\n" ++
      "export const " ++ v ++ ": " ++ t ++ " = " ++ lit ctx.apiVersion ++ ";")
  | .resourceBaseP apiB resB baseB scopeB metaB => do
    let apiV ← bindingText env apiB
    let res ← bindingText env resB
    let base ← bindingText env baseB
    let scope ← bindingText env scopeB
    let metaTxt ← bindingText env metaB
    .ok ("/** A \x7b@link " ++ base ++ " resource\x7d in the `" ++ ctx.apiVersion ++
      "` API. */\n" ++
      "export type " ++ res ++ "<K extends string, S extends " ++ scope ++ " = " ++
      lit "namespace" ++ ">" ++
      " = " ++ base ++ "<" ++ apiV ++ ", K, S, " ++ metaTxt ++ ">;")
  | .resourceP d scope fB lB aB rB nB listB obj => do
    let name ← bindingText env nB
    let listName ← bindingText env listB
    let factory ← bindingText env fB
    let listBase ← bindingText env lB
    let apiV ← bindingText env aB
    let apiRes ← bindingText env rB
    let objTxt ← renderType env obj
    let typeParams := String.intercalate ", "
      ([lit name] ++ (if scope ≠ "namespace" then [lit scope] else []))
    let kindTxt := docText d.meta 0 ++ "export interface " ++ name ++
      " extends " ++ apiRes ++ "<" ++ typeParams ++ "> " ++ objTxt
    let factoryTxt := "export const " ++ name ++ " = " ++ factory ++ "<" ++ name ++
      ">(" ++ String.intercalate ", " [apiV, lit name, lit scope] ++ ");"
    let listTxt := "export type " ++ listName ++ " = " ++ listBase ++ "<" ++ name ++ ">;"
    .ok (String.intercalate "\n\n" [kindTxt, factoryTxt, listTxt])
  | .interfaceP d nB obj parents => do
    let name ← bindingText env nB
    let objTxt ← renderType env obj
    let ps ← renderBindings env parents
    let ext := if parents.length ≠ 0 then " extends " ++ String.intercalate ", " ps else ""
    .ok (docText d.meta 0 ++ "export interface " ++ name ++ ext ++ " " ++ objTxt)
  | .reexportP d nB refB => do
    let refTxt ← bindingText env refB
    let asTxt ← (match nB with
      | some b => do
        let t ← bindingText env b
        .ok (" as " ++ t)
      | none => .ok "")
    .ok (docText d.meta 0 ++ "export type \x7b " ++ refTxt ++ asTxt ++ " \x7d;")
  | .aliasP d nB v => do
    let name ← bindingText env nB
    let valTxt ← renderType env v
    .ok (docText d.meta 0 ++ "export type " ++ name ++ " = " ++ valTxt ++ ";")

/-- The render loop of Module.render over the member plans. -/
def renderMembers (env : RenderEnv) (ctx : Context) :
    List MemberPlan → Except String (List String)
  | [] => .ok []
  | p :: rest => do
    let s ← renderMember env ctx p
    let ss ← renderMembers env ctx rest
    .ok (s :: ss)

/-- The member list of emitVersion: the APIVersion generator, the resource
base when some definition is a resource, then the definitions in order. -/
def moduleMembers (defs : List Definition) (metaTarget : Option RefTarget) :
    List ModuleMember :=
  [ModuleMember.apiVersionMember] ++
    (match metaTarget with
    | some t => [ModuleMember.resourceBaseMember t]
    | none => []) ++
    defs.map ModuleMember.defMember

/-- emitVersion: build the module path, construct all generators (build
stage, fatal on a malformed resource or a nested resource type), run the
apply pass in member order with the import table last, resolve, then
render the import block followed by the members, skipping empty fragments,
all joined by blank lines. -/
def emitVersion (schema : APIGroupVersion) (engine : Engine) :
    Except String String := do
  let modulePath := (match strTruthy schema.group.module with
    | some m => m ++ "/"
    | none => "") ++ schema.version ++ ".ts"
  let metaTarget ← resourceBaseCheck schema.definitions
  checkDefinitions schema.definitions
  let members := moduleMembers schema.definitions metaTarget
  let applied ← applyMembers members (⟨[]⟩, ⟨[]⟩)
  let resolved ← (applied.1.2).applyAll applied.1.1
  let env : RenderEnv := ⟨resolved.1, resolved.2⟩
  let ctx : Context :=
    ⟨schema.group, schema.version, schema.dependencies, modulePath, engine⟩
  let impBlock ← renderImportsBlock applied.1.2 env ctx
  let memberTexts ← renderMembers env ctx applied.2
  .ok (String.intercalate "\n\n" ((impBlock :: memberTexts).filter (fun s => s ≠ "")))

/-! ## C1 — rendering of optional properties -/

/-- A property that is not required but whose value is not wrapped in
`optional`. -/
def c1Prop : SchemaProperty :=
  SchemaProperty.mk "x" false (SchemaType.string none) ⟨none, false⟩

/-- An empty rendering environment (the property below resolves no
bindings). -/
def c1Env : RenderEnv := ⟨⟨[]⟩, []⟩

/-- The identifier table reached by registering the declaration `Foo_` and
then two imports of raw name `Foo`. -/
def c3Names : Names := ⟨[("Foo_", [NameUsage.declaration]), ("Foo", [NameUsage.imported, NameUsage.imported])]⟩

/-! ## C4 — two same-named imports from different sources -/

/-- Two distinct remote sources. -/
def c4SrcA : ImportSource := ImportSource.api "a" none

/-- The second remote source. -/
def c4SrcB : ImportSource := ImportSource.api "b" none

/-- Import table registering member N from source a, then from source b. -/
def c4StAB : Imports :=
  ((⟨[]⟩ : Imports).use c4SrcA "N" (some { typeOnly := some true })).use
    c4SrcB "N" (some { typeOnly := some true })

/-- Import table registering member N from source b, then from source a. -/
def c4StBA : Imports :=
  ((⟨[]⟩ : Imports).use c4SrcB "N" (some { typeOnly := some true })).use
    c4SrcA "N" (some { typeOnly := some true })

/-- Rendering environment resolved from the a-then-b table. -/
def c4EnvAB : RenderEnv :=
  match c4StAB.applyAll ⟨[]⟩ with
  | .ok r => ⟨r.1, r.2⟩
  | .error _ => ⟨⟨[]⟩, []⟩

/-- Rendering environment resolved from the b-then-a table. -/
def c4EnvBA : RenderEnv :=
  match c4StBA.applyAll ⟨[]⟩ with
  | .ok r => ⟨r.1, r.2⟩
  | .error _ => ⟨⟨[]⟩, []⟩

/-- The source of the repeated import. -/
def c5Src : ImportSource := ImportSource.api "pkg" none

/-- A type-only first use of member x. -/
def c5St1 : Imports := (⟨[]⟩ : Imports).use c5Src "x" (some { typeOnly := some true })

/-- A later use of the same member with no options argument — a
value-requiring usage in the sense of the claim. -/
def c5St2 : Imports := c5St1.use c5Src "x" none

/-- One local and one remote import, the local registered first. -/
def c6Imps : Imports :=
  ((⟨[]⟩ : Imports).use (ImportSource.loc "other.ts") "Loc" none).use
    (ImportSource.api "k" none) "Rem" (some { typeOnly := some true })

/-- The resolved environment of the two-import table. -/
def c6Env : RenderEnv :=
  match c6Imps.applyAll ⟨[]⟩ with
  | .ok r => ⟨r.1, r.2⟩
  | .error _ => ⟨⟨[]⟩, []⟩

/-- The remote module entry of the two-import table. -/
def c6RemMod : ImportedModule :=
  ⟨ImportSource.api "k" none, [("Rem", ⟨"Rem", none, true⟩)]⟩

/-- The generator's own lib:schema usage: `resourceBase` imports
`factory` as a value and `NameScope` type-only from lib:schema. -/
def c6cImps : Imports :=
  ((⟨[]⟩ : Imports).use schemaSrc "factory" none).use
    schemaSrc "NameScope" (some { typeOnly := some true })

/-- The resolved environment of the lib:schema import table. -/
def c6cEnv : RenderEnv :=
  match c6cImps.applyAll ⟨[]⟩ with
  | .ok r => ⟨r.1, r.2⟩
  | .error _ => ⟨⟨[]⟩, []⟩

/-! ## C8 — remote "api" paths and the kubernetes sentinel -/

/-- A deno context whose dependency map pins kubernetes to 1.30. -/
def c8Ctx : Context := ⟨⟨none, none⟩, "v1", [⟨"kubernetes", "1.30"⟩], "v1.ts", Engine.deno⟩

/-- The schema whose single resource definition has a non-reference
metadata property. -/
def c7Schema : APIGroupVersion :=
  ⟨⟨none, none⟩, "v1", [],
    [⟨"Bad", ⟨none, false⟩, SchemaType.resource
      [SchemaProperty.mk "metadata" true (SchemaType.string none) ⟨none, false⟩]
      "namespace"⟩]⟩

/-- The schema whose only definition re-exports a remote APIVersion under
the same name. -/
def c10Schema : APIGroupVersion :=
  ⟨⟨none, none⟩, "v1", [],
    [⟨"APIVersion", ⟨none, false⟩,
      SchemaType.reference ⟨some ⟨⟨none, none⟩, "v1", some "other"⟩, "APIVersion"⟩⟩]⟩

/-- The schema whose only definition is an alias named APIVersion. -/
def c10BadSchema : APIGroupVersion :=
  ⟨⟨none, none⟩, "v1", [], [⟨"APIVersion", ⟨none, false⟩, SchemaType.string none⟩]⟩

/-- Helper: data of a concatenation. -/
theorem strDataAppend (a b : String) : (a ++ b).data = a.data ++ b.data := rfl

/-- Helper: a string is determined by its character list. -/
theorem strDataInj : ∀ {a b : String}, a.data = b.data → a = b
  | ⟨_⟩, ⟨_⟩, h => by cases h; rfl

theorem mem_insertLe (le : α → α → Bool) (a x : α) :
    ∀ l : List α, x ∈ insertLe le a l ↔ x = a ∨ x ∈ l := by
  intro l
  induction l with
  | nil => simp [insertLe]
  | cons b t ih =>
    simp only [insertLe]
    by_cases h : le a b = true
    · simp [h]
    · rw [if_neg h]
      simp only [List.mem_cons, ih]
      tauto

theorem mem_sortLe (le : α → α → Bool) (x : α) :
    ∀ l : List α, x ∈ sortLe le l ↔ x ∈ l := by
  intro l
  induction l with
  | nil => simp [sortLe]
  | cons a t ih => simp [sortLe, mem_insertLe, ih]

theorem pairwise_insertLe (le : α → α → Bool)
    (htr : ∀ a b c, le a b = true → le b c = true → le a c = true)
    (hto : ∀ a b, le a b = true ∨ le b a = true) (a : α) :
    ∀ l : List α, l.Pairwise (fun x y => le x y = true) →
      (insertLe le a l).Pairwise (fun x y => le x y = true) := by
  intro l
  induction l with
  | nil => intro _; simp [insertLe]
  | cons b t ih =>
    intro hp
    rw [List.pairwise_cons] at hp
    simp only [insertLe]
    by_cases h : le a b = true
    · rw [if_pos h]
      refine List.Pairwise.cons ?_ (List.Pairwise.cons hp.1 hp.2)
      intro x hx
      rcases List.mem_cons.mp hx with rfl | hxt
      · exact h
      · exact htr a b x h (hp.1 x hxt)
    · rw [if_neg h]
      refine List.Pairwise.cons ?_ (ih hp.2)
      intro x hx
      rcases (mem_insertLe le a x t).mp hx with hxa | hxt
      · rw [hxa]
        rcases hto a b with hab | hba
        · exact absurd hab h
        · exact hba
      · exact hp.1 x hxt

theorem pairwise_sortLe (le : α → α → Bool)
    (htr : ∀ a b c, le a b = true → le b c = true → le a c = true)
    (hto : ∀ a b, le a b = true ∨ le b a = true) :
    ∀ l : List α, (sortLe le l).Pairwise (fun x y => le x y = true) := by
  intro l
  induction l with
  | nil => simp [sortLe]
  | cons a t ih => exact pairwise_insertLe le htr hto a _ ih

theorem strLeList_total : ∀ a b, strLeList a b = true ∨ strLeList b a = true := by
  intro a
  induction a with
  | nil => intro b; left; rfl
  | cons x xs ih =>
    intro b
    cases b with
    | nil => right; rfl
    | cons y ys =>
      simp only [strLeList]
      rcases Nat.lt_trichotomy x.toNat y.toNat with h | h | h
      · left; simp [h]
      · have h1 : ¬ x.toNat < y.toNat := by omega
        have h2 : ¬ y.toNat < x.toNat := by omega
        simp only [h1, h2, if_false]
        exact ih ys
      · right; simp [h]

theorem strLeList_trans :
    ∀ a b c, strLeList a b = true → strLeList b c = true → strLeList a c = true := by
  intro a
  induction a with
  | nil => intro b c _ _; rfl
  | cons x xs ih =>
    intro b c hab hbc
    cases b with
    | nil => simp [strLeList] at hab
    | cons y ys =>
      cases c with
      | nil => simp [strLeList] at hbc
      | cons z zs =>
        simp only [strLeList] at hab hbc ⊢
        rcases Nat.lt_trichotomy x.toNat z.toNat with h | h | h
        · simp [h]
        · have h1 : ¬ x.toNat < z.toNat := by omega
          have h2 : ¬ z.toNat < x.toNat := by omega
          simp only [h1, h2, if_false]
          rcases Nat.lt_trichotomy x.toNat y.toNat with g | g | g
          · rcases Nat.lt_trichotomy y.toNat z.toNat with k | k | k
            · omega
            · omega
            · simp only [if_neg (by omega : ¬ y.toNat < z.toNat), if_pos k] at hbc
              exact absurd hbc (by simp)
          · simp only [if_neg (by omega : ¬ x.toNat < y.toNat),
              if_neg (by omega : ¬ y.toNat < x.toNat)] at hab
            simp only [if_neg (by omega : ¬ y.toNat < z.toNat),
              if_neg (by omega : ¬ z.toNat < y.toNat)] at hbc
            exact ih ys zs hab hbc
          · simp only [if_neg (by omega : ¬ x.toNat < y.toNat), if_pos g] at hab
            exact absurd hab (by simp)
        · rcases Nat.lt_trichotomy x.toNat y.toNat with g | g | g
          · rcases Nat.lt_trichotomy y.toNat z.toNat with k | k | k
            · omega
            · omega
            · simp only [if_neg (by omega : ¬ y.toNat < z.toNat), if_pos k] at hbc
              exact absurd hbc (by simp)
          · simp only [if_neg (by omega : ¬ y.toNat < z.toNat),
              if_pos (by omega : z.toNat < y.toNat)] at hbc
            exact absurd hbc (by simp)
          · simp only [if_neg (by omega : ¬ x.toNat < y.toNat), if_pos g] at hab
            exact absurd hab (by simp)

theorem strLe_total (a b : String) : strLe a b = true ∨ strLe b a = true :=
  strLeList_total a.data b.data

theorem strLe_trans (a b c : String) :
    strLe a b = true → strLe b c = true → strLe a c = true :=
  strLeList_trans a.data b.data c.data

theorem natLeList_total : ∀ a b, natLeList a b = true ∨ natLeList b a = true := by
  intro a
  induction a with
  | nil => intro b; left; rfl
  | cons x xs ih =>
    intro b
    cases b with
    | nil => right; rfl
    | cons y ys =>
      simp only [natLeList]
      rcases Nat.lt_trichotomy x y with h | h | h
      · left; simp [h]
      · have h1 : ¬ x < y := by omega
        have h2 : ¬ y < x := by omega
        simp only [h1, h2, if_false]
        exact ih ys
      · right; simp [h]

theorem natLeList_trans :
    ∀ a b c, natLeList a b = true → natLeList b c = true → natLeList a c = true := by
  intro a
  induction a with
  | nil => intro b c _ _; rfl
  | cons x xs ih =>
    intro b c hab hbc
    cases b with
    | nil => simp [natLeList] at hab
    | cons y ys =>
      cases c with
      | nil => simp [natLeList] at hbc
      | cons z zs =>
        simp only [natLeList] at hab hbc ⊢
        rcases Nat.lt_trichotomy x z with h | h | h
        · simp [h]
        · have h1 : ¬ x < z := by omega
          have h2 : ¬ z < x := by omega
          simp only [h1, h2, if_false]
          rcases Nat.lt_trichotomy x y with g | g | g
          · rcases Nat.lt_trichotomy y z with k | k | k
            · omega
            · omega
            · simp only [if_neg (by omega : ¬ y < z), if_pos k] at hbc
              exact absurd hbc (by simp)
          · simp only [if_neg (by omega : ¬ x < y),
              if_neg (by omega : ¬ y < x)] at hab
            simp only [if_neg (by omega : ¬ y < z),
              if_neg (by omega : ¬ z < y)] at hbc
            exact ih ys zs hab hbc
          · simp only [if_neg (by omega : ¬ x < y), if_pos g] at hab
            exact absurd hab (by simp)
        · rcases Nat.lt_trichotomy x y with g | g | g
          · rcases Nat.lt_trichotomy y z with k | k | k
            · omega
            · omega
            · simp only [if_neg (by omega : ¬ y < z), if_pos k] at hbc
              exact absurd hbc (by simp)
          · simp only [if_neg (by omega : ¬ y < z),
              if_pos (by omega : z < y)] at hbc
            exact absurd hbc (by simp)
          · simp only [if_neg (by omega : ¬ x < y), if_pos g] at hab
            exact absurd hab (by simp)

theorem localeLe_total (a b : String) : localeLe a b = true ∨ localeLe b a = true :=
  natLeList_total (icuKey a) (icuKey b)

theorem localeLe_trans (a b c : String) :
    localeLe a b = true → localeLe b c = true → localeLe a c = true :=
  natLeList_trans (icuKey a) (icuKey b) (icuKey c)

theorem digitChar_val (d : Nat) (h : d < 10) : charDigitVal (Nat.digitChar d) = d := by
  interval_cases d <;> rfl

theorem valPow_toDigitsCore :
    ∀ (f n : Nat) (rest : List Char), n < 10 ^ f →
      (valPow (Nat.toDigitsCore 10 f n rest)).1 = n * (valPow rest).2 + (valPow rest).1 := by
  intro f
  induction f with
  | zero =>
    intro n rest h
    have hn : n = 0 := by simpa using h
    subst hn
    simp [Nat.toDigitsCore]
  | succ f ih =>
    intro n rest h
    show (valPow (Nat.toDigitsCore 10 (f + 1) n rest)).1 = _
    rw [Nat.toDigitsCore]
    by_cases h10 : n / 10 = 0
    · have hlt : n < 10 := by omega
      have hmod : n % 10 = n := Nat.mod_eq_of_lt hlt
      simp only [h10, if_true, valPow]
      rw [digitChar_val (n % 10) (Nat.mod_lt n (by norm_num)), hmod]
    · simp only [h10, if_false]
      have hdiv : n / 10 < 10 ^ f := by
        rw [Nat.div_lt_iff_lt_mul (by norm_num : 0 < 10)]
        calc n < 10 ^ (f + 1) := h
        _ = 10 ^ f * 10 := by ring
      rw [ih (n / 10) (Nat.digitChar (n % 10) :: rest) hdiv]
      simp only [valPow]
      rw [digitChar_val (n % 10) (Nat.mod_lt n (by norm_num))]
      have h1 : 10 * (n / 10) + n % 10 = n := Nat.div_add_mod n 10
      calc n / 10 * (10 * (valPow rest).2) + ((n % 10) * (valPow rest).2 + (valPow rest).1)
          = (10 * (n / 10) + n % 10) * (valPow rest).2 + (valPow rest).1 := by ring
        _ = n * (valPow rest).2 + (valPow rest).1 := by rw [h1]

theorem natRepr_injective : ∀ m n : Nat, Nat.repr m = Nat.repr n → m = n := by
  intro m n h
  have hd : Nat.toDigits 10 m = Nat.toDigits 10 n := congrArg String.data h
  have bm : m < 10 ^ (m + 1) :=
    lt_of_lt_of_le (Nat.lt_two_pow m)
      (le_trans (Nat.pow_le_pow_left (by norm_num) m)
        (Nat.pow_le_pow_right (by norm_num) (Nat.le_succ m)))
  have bn : n < 10 ^ (n + 1) :=
    lt_of_lt_of_le (Nat.lt_two_pow n)
      (le_trans (Nat.pow_le_pow_left (by norm_num) n)
        (Nat.pow_le_pow_right (by norm_num) (Nat.le_succ n)))
  have vm := valPow_toDigitsCore (m + 1) m [] bm
  have vn := valPow_toDigitsCore (n + 1) n [] bn
  rw [show Nat.toDigitsCore 10 (m + 1) m [] = Nat.toDigits 10 m from rfl] at vm
  rw [show Nat.toDigitsCore 10 (n + 1) n [] = Nat.toDigits 10 n from rfl] at vn
  rw [hd] at vm
  simp [valPow] at vm vn
  omega

theorem toDigitsCore_length_ge :
    ∀ (f n : Nat) (rest : List Char),
      rest.length ≤ (Nat.toDigitsCore 10 f n rest).length := by
  intro f
  induction f with
  | zero => intro n rest; simp [Nat.toDigitsCore]
  | succ f ih =>
    intro n rest
    rw [Nat.toDigitsCore]
    by_cases h10 : n / 10 = 0
    · simp [h10]
    · simp only [h10, if_false]
      calc rest.length ≤ (Nat.digitChar (n % 10) :: rest).length := by simp
      _ ≤ _ := ih (n / 10) _

theorem natRepr_ne_empty (n : Nat) : Nat.repr n ≠ "" := by
  intro h
  have hlen : (Nat.repr n).data.length = 0 := by rw [h]; rfl
  have : (Nat.toDigits 10 n).length = 0 := hlen
  rw [Nat.toDigits, Nat.toDigitsCore] at this
  by_cases h10 : n / 10 = 0
  · simp [h10] at this
  · simp only [h10, if_false] at this
    have hge := toDigitsCore_length_ge n (n / 10) [Nat.digitChar (n % 10)]
    simp only [List.length_cons, List.length_nil] at hge
    omega

/-! ## Facts about `Names.resolve` -/

theorem sortRegs_firsts_nodup (regs : List NameUsage) :
    ((sortRegs regs.enum).map Prod.fst).Nodup := by
  have henum : (regs.enum.map Prod.fst).Nodup := by
    rw [List.enum_map_fst]
    exact List.nodup_range regs.length
  have hinj := List.inj_on_of_nodup_map henum
  have h1 : ((regs.enum.filter (fun r => decide (usageWeight r.2 = 0))).map Prod.fst).Nodup :=
    henum.sublist (List.Sublist.map Prod.fst (List.filter_sublist _))
  have h2 : ((regs.enum.filter (fun r => decide (usageWeight r.2 ≠ 0))).map Prod.fst).Nodup :=
    henum.sublist (List.Sublist.map Prod.fst (List.filter_sublist _))
  rw [sortRegs, List.map_append]
  refine List.Nodup.append h1 h2 ?_
  intro x hx1 hx2
  rcases List.mem_map.mp hx1 with ⟨a, ha, hax⟩
  rcases List.mem_map.mp hx2 with ⟨b, hb, hbx⟩
  have ha' := List.mem_filter.mp ha
  have hb' := List.mem_filter.mp hb
  have hab : a = b := hinj ha'.1 hb'.1 (by rw [hax, hbx])
  rw [hab] at ha'
  have := ha'.2
  have := hb'.2
  simp_all

theorem findIdx_fst_of_nodup {β : Type} :
    ∀ (l : List (Nat × β)), ((l.map Prod.fst).Nodup) →
      ∀ (j : Nat) (h : j < l.length),
        l.findIdx (fun r => decide (r.1 = (l.get ⟨j, h⟩).1)) = j := by
  intro l
  induction l with
  | nil => intro _ j h; exact absurd h (by simp)
  | cons a t ih =>
    intro hnd j h
    rw [List.map_cons, List.nodup_cons] at hnd
    rcases j with _ | j
    · simp [List.findIdx_cons]
    · have hjt : j < t.length := by simpa using h
      have hget : ((a :: t).get ⟨j + 1, h⟩) = (t.get ⟨j, hjt⟩) := rfl
      rw [hget, List.findIdx_cons]
      have hne : ¬ a.1 = (t.get ⟨j, hjt⟩).1 := by
        intro he
        exact hnd.1 (he ▸ List.mem_map_of_mem Prod.fst (t.get_mem _ _))
      have hdec : decide (a.1 = (t.get ⟨j, hjt⟩).1) = false := by
        simpa using hne
      rw [hdec, cond_false]
      exact congrArg (fun x => x + 1) (ih hnd.2 j hjt)

theorem spell_zero (t : String) : spell t 0 = t := rfl

theorem spell_one (t : String) : spell t 1 = t ++ "_" := rfl

theorem spell_ge_two (t : String) (j : Nat) (h : 2 ≤ j) :
    spell t j = t ++ "_" ++ Nat.repr j := by
  unfold spell
  rw [if_neg (by omega), if_neg (by omega)]

theorem spell_data_zero (t : String) : (spell t 0).data = t.data := rfl

theorem spell_data_one (t : String) : (spell t 1).data = t.data ++ ['_'] := rfl

theorem spell_data_ge_two (t : String) (j : Nat) (h : 2 ≤ j) :
    (spell t j).data = t.data ++ '_' :: (Nat.repr j).data := by
  rw [spell_ge_two t j h]
  show (t.data ++ ['_']) ++ (Nat.repr j).data = _
  simp

theorem spell_injective (token : String) :
    ∀ i j : Nat, spell token i = spell token j → i = j := by
  intro i j h
  have hd := congrArg String.data h
  rcases Nat.lt_or_ge i 2 with hi | hi <;> rcases Nat.lt_or_ge j 2 with hj | hj
  · interval_cases i <;> interval_cases j
    · rfl
    · rw [spell_data_zero, spell_data_one] at hd
      have hlen := congrArg List.length hd
      simp only [List.length_append, List.length_cons, List.length_nil] at hlen
      omega
    · rw [spell_data_one, spell_data_zero] at hd
      have hlen := congrArg List.length hd
      simp only [List.length_append, List.length_cons, List.length_nil] at hlen
      omega
    · rfl
  · exfalso
    interval_cases i
    · rw [spell_data_zero, spell_data_ge_two token j hj] at hd
      have hlen := congrArg List.length hd
      simp only [List.length_append, List.length_cons] at hlen
      omega
    · rw [spell_data_one, spell_data_ge_two token j hj] at hd
      have hc := List.append_cancel_left hd
      injection hc with h1 h2
      exact absurd (@strDataInj (Nat.repr j) "" h2.symm) (natRepr_ne_empty j)
  · exfalso
    interval_cases j
    · rw [spell_data_zero, spell_data_ge_two token i hi] at hd
      have hlen := congrArg List.length hd
      simp only [List.length_append, List.length_cons] at hlen
      omega
    · rw [spell_data_one, spell_data_ge_two token i hi] at hd
      have hc := List.append_cancel_left hd.symm
      injection hc with h1 h2
      exact absurd (@strDataInj (Nat.repr i) "" h2.symm) (natRepr_ne_empty i)
  · rw [spell_data_ge_two token i hi, spell_data_ge_two token j hj] at hd
    have hc := List.append_cancel_left hd
    injection hc with h1 h2
    exact natRepr_injective i j (strDataInj h2)

/-! ## Small helpers for reasoning about the embedding -/

theorem exceptBindOk {ε α β : Type} (a : α) (f : α → Except ε β) :
    (Except.ok a >>= f) = f a := rfl

theorem exceptBindErr {ε α β : Type} (e : ε) (f : α → Except ε β) :
    ((Except.error e : Except ε α) >>= f) = Except.error e := rfl

theorem exceptIsOkErr {ε α : Type} (e : ε) :
    (Except.error e : Except ε α).isOk = false := rfl

theorem existsErrOfIsOkFalse {ε α : Type} (x : Except ε α) (h : x.isOk = false) :
    ∃ e, x = Except.error e := by
  cases x with
  | ok a => exact absurd h (by simp [Except.isOk, Except.toBool])
  | error e => exact ⟨e, rfl⟩

theorem isOkFalseOfErr {ε α : Type} {x : Except ε α} {e : ε}
    (h : x = Except.error e) : x.isOk = false := by
  rw [h]; rfl

/-! ## C9 — determinism -/

/-- C9: generation is deterministic — the whole generation pipeline is a
pure function of the schema value and the engine selector (every source of
iteration order in the TS code, the JS `Map`, iterates in insertion order,
which the embedding reproduces), so two runs on identical inputs yield
identical output text. -/
theorem c9_determinism (schema : APIGroupVersion) (engine : Engine) :
    emitVersion schema engine = emitVersion schema engine := rfl

/-- C1: counterexample. The compiled member for the optional property
`x : string` (required = false) renders as `x?: string;` with no `| null`
union: gen.property only appends the `?` marker, and `| null` comes only
from an `optional`-wrapped value type, contrary to the claim. -/
theorem c1_counterexample :
    applyProp c1Prop ⟨[]⟩ =
      Except.ok (⟨[]⟩, PropPlan.mk "x" true ⟨none, false⟩ (TypePlan.strEnum none)) ∧
    renderProp c1Env (PropPlan.mk "x" true ⟨none, false⟩ (TypePlan.strEnum none)) =
      Except.ok "  x?: string;" ∧
    "  x?: string;" ≠ "  x?: string | null;" :=
  ⟨rfl, rfl, by decide⟩

/-- C1 (amended): a required property renders as `name: T` and an optional
property as `name?: T` — the `?` marker alone encodes optionality — and
the `| null` union appears in `T` exactly when the property's value is an
`optional`-wrapped type, in which case gen.optional appends it. -/
theorem c1_amended (env : RenderEnv) (n : String) (req : Bool) (v : SchemaType)
    (meta : DefinitionMeta) (imps imps' : Imports) (pl : PropPlan) (txt : String)
    (hA : applyProp (SchemaProperty.mk n req v meta) imps = Except.ok (imps', pl))
    (hR : renderProp env pl = Except.ok txt) :
    ∃ vt, renderType env pl.value = Except.ok vt ∧
      txt = docText meta 1 ++ "  " ++ propRenderName n ++
        (if req then "" else "?") ++ ": " ++ vt ++ ";" ∧
      ∀ v0, v = SchemaType.optional v0 →
        ∃ vt0, renderType env pl.value = Except.ok (vt0 ++ " | null") := by
  rw [applyProp] at hA
  cases hv : applyType false v imps with
  | error e => rw [hv, exceptBindErr] at hA; cases hA
  | ok r =>
    rw [hv, exceptBindOk] at hA
    cases hA
    rw [renderProp] at hR
    cases hr : renderType env r.2 with
    | error e => rw [hr, exceptBindErr] at hR; cases hR
    | ok s =>
      rw [hr, exceptBindOk] at hR
      cases hR
      refine ⟨s, hr, ?_, ?_⟩
      · cases req <;> rfl
      · intro v0 hv0
        subst hv0
        rw [applyType] at hv
        cases hv0' : applyType false v0 imps with
        | error e => rw [hv0', exceptBindErr] at hv; cases hv
        | ok r0 =>
          rw [hv0', exceptBindOk] at hv
          cases hv
          have hr' : renderType env (TypePlan.optional r0.2) = Except.ok s := hr
          rw [renderType] at hr'
          cases hr0 : renderType env r0.2 with
          | error e => rw [hr0, exceptBindErr] at hr'; cases hr'
          | ok s0 =>
            refine ⟨s0, ?_⟩
            show renderType env (TypePlan.optional r0.2) = _
            rw [renderType, hr0, exceptBindOk]

/-- C1 witness: the amended statement at the concrete optional property
whose value is `optional string`. -/
theorem c1_amended_witness :
    ∃ vt, renderType c1Env (PropPlan.mk "y" true ⟨none, false⟩
        (TypePlan.optional (TypePlan.strEnum none))).value = Except.ok vt ∧
      "  y?: string | null;" = docText ⟨none, false⟩ 1 ++ "  " ++ propRenderName "y" ++
        (if false then "" else "?") ++ ": " ++ vt ++ ";" ∧
      ∀ v0, SchemaType.optional (SchemaType.string none) = SchemaType.optional v0 →
        ∃ vt0, renderType c1Env (PropPlan.mk "y" true ⟨none, false⟩
          (TypePlan.optional (TypePlan.strEnum none))).value = Except.ok (vt0 ++ " | null") :=
  c1_amended c1Env "y" false (SchemaType.optional (SchemaType.string none)) ⟨none, false⟩
    ⟨[]⟩ ⟨[]⟩ (PropPlan.mk "y" true ⟨none, false⟩ (TypePlan.optional (TypePlan.strEnum none)))
    "  y?: string | null;" rfl rfl

/-! ## C2 — identifier resolution order and suffixes -/

theorem mem_enumFrom_of_get {α : Type} :
    ∀ (l : List α) (s i : Nat) (a : α), l.get? i = some a →
      (s + i, a) ∈ l.enumFrom s := by
  intro l
  induction l with
  | nil => intro s i a h; cases h
  | cons x t ih =>
    intro s i a h
    cases i with
    | zero =>
      cases h
      exact List.mem_cons_self _ _
    | succ i =>
      have := ih (s + 1) i a h
      have harith : s + 1 + i = s + (i + 1) := by omega
      rw [harith] at this
      exact List.mem_cons_of_mem _ this

theorem mem_enum_of_get {α : Type} (l : List α) (i : Nat) (a : α)
    (h : l.get? i = some a) : (i, a) ∈ l.enum := by
  have := mem_enumFrom_of_get l 0 i a h
  simpa using this

theorem length_declFilter_enumFrom :
    ∀ (regs : List NameUsage) (s : Nat),
      ((regs.enumFrom s).filter (fun r => decide (usageWeight r.2 = 0))).length =
        regs.count NameUsage.declaration := by
  intro regs
  induction regs with
  | nil => intro s; rfl
  | cons u t ih =>
    intro s
    cases u with
    | declaration =>
      have hstep : ((s, NameUsage.declaration) :: List.enumFrom (s + 1) t).filter
          (fun r => decide (usageWeight r.2 = 0)) =
          (s, NameUsage.declaration) :: (List.enumFrom (s + 1) t).filter
            (fun r => decide (usageWeight r.2 = 0)) := rfl
      rw [show List.enumFrom s (NameUsage.declaration :: t) =
          (s, NameUsage.declaration) :: List.enumFrom (s + 1) t from rfl, hstep,
        List.length_cons, ih (s + 1), List.count_cons]
      simp
    | imported =>
      have hstep : ((s, NameUsage.imported) :: List.enumFrom (s + 1) t).filter
          (fun r => decide (usageWeight r.2 = 0)) =
          (List.enumFrom (s + 1) t).filter
            (fun r => decide (usageWeight r.2 = 0)) := rfl
      rw [show List.enumFrom s (NameUsage.imported :: t) =
          (s, NameUsage.imported) :: List.enumFrom (s + 1) t from rfl, hstep,
        ih (s + 1), List.count_cons]
      simp

/-- C2: identifier resolution groups registrations by raw name (the table
maps each raw name to its registration list) and sorts each group by usage
weight, declarations first, stably; the entry at sorted position 0 keeps
the raw spelling, position 1 gets `raw_`, position i ≥ 2 gets `raw_i`; and
a declaration (of which a group holds at most one, enforced by Names.add)
is always at position 0, hence never suffixed. -/
theorem c2_resolution (token : String) (regs : List NameUsage)
    (hcount : regs.count NameUsage.declaration ≤ 1) :
    (spell token 0 = token ∧ spell token 1 = token ++ "_" ∧
      ∀ i, 2 ≤ i → spell token i = token ++ "_" ++ Nat.repr i) ∧
    sortRegs regs.enum =
      regs.enum.filter (fun r => decide (usageWeight r.2 = 0)) ++
        regs.enum.filter (fun r => decide (usageWeight r.2 ≠ 0)) ∧
    (∀ j (h : j < (sortRegs regs.enum).length),
      resolvedSpelling token regs ((sortRegs regs.enum).get ⟨j, h⟩).1 = spell token j) ∧
    (∀ idx, regs.get? idx = some NameUsage.declaration →
      resolvedSpelling token regs idx = token) := by
  refine ⟨⟨rfl, rfl, spell_ge_two token⟩, rfl, ?_, ?_⟩
  · intro j h
    rw [resolvedSpelling,
      findIdx_fst_of_nodup (sortRegs regs.enum) (sortRegs_firsts_nodup regs) j h]
  · intro idx hidx
    have hmem : (idx, NameUsage.declaration) ∈ regs.enum :=
      mem_enum_of_get regs idx _ hidx
    have hmemf : (idx, NameUsage.declaration) ∈
        regs.enum.filter (fun r => decide (usageWeight r.2 = 0)) :=
      List.mem_filter.mpr ⟨hmem, rfl⟩
    have hlen : (regs.enum.filter (fun r => decide (usageWeight r.2 = 0))).length ≤ 1 := by
      have := length_declFilter_enumFrom regs 0
      rw [show regs.enum = regs.enumFrom 0 from rfl]
      omega
    have hpos : 0 < (regs.enum.filter (fun r => decide (usageWeight r.2 = 0))).length :=
      List.length_pos.mpr (by intro h0; rw [h0] at hmemf; cases hmemf)
    have hone : (regs.enum.filter (fun r => decide (usageWeight r.2 = 0))).length = 1 := by
      omega
    rcases List.length_eq_one.mp hone with ⟨a, ha⟩
    have haeq : a = (idx, NameUsage.declaration) := by
      rw [ha] at hmemf
      exact (List.mem_singleton.mp hmemf).symm
    rw [resolvedSpelling, sortRegs, ha, haeq]
    simp only [List.cons_append, List.nil_append]
    rw [List.findIdx_cons]
    simp [spell]

/-- C2 witness: in the group of raw name `T` registered as import,
declaration, import (in that order), the declaration keeps the raw
spelling. -/
theorem c2_resolution_witness :
    resolvedSpelling "T" [NameUsage.imported, NameUsage.declaration, NameUsage.imported] 1 = "T" :=
  (c2_resolution "T" [NameUsage.imported, NameUsage.declaration, NameUsage.imported]
    (by decide)).2.2.2 1 (by decide)

/-! ## C3 — collision freedom of resolved spellings -/

/-- Every registration of a group appears in its stable weight-sorted
order. -/
theorem mem_sortRegs_of_mem {x : Nat × NameUsage} {l : List (Nat × NameUsage)}
    (h : x ∈ l) : x ∈ sortRegs l := by
  rw [sortRegs]
  by_cases hw : usageWeight x.2 = 0
  · exact List.mem_append_left _ (List.mem_filter.mpr ⟨h, by simp [hw]⟩)
  · exact List.mem_append_right _ (List.mem_filter.mpr ⟨h, by simp [hw]⟩)

/-- C3: counterexample. The registrations declaration `Foo_`, import
`Foo`, import `Foo` are all accepted without error, yet resolution assigns
the spelling `Foo_` both to the declaration (raw name kept) and to the
second import of `Foo` (suffixed) — resolved spellings are not pairwise
distinct across raw-name groups. -/
theorem c3_counterexample :
    (do
      let r1 ← Names.add ⟨[]⟩ "Foo_" NameUsage.declaration
      let r2 ← r1.1.add "Foo" NameUsage.imported
      let r3 ← r2.1.add "Foo" NameUsage.imported
      Except.ok r3.1 : Except String Names) = Except.ok c3Names ∧
    resolvedSpelling "Foo_" (c3Names.group "Foo_") 0 = "Foo_" ∧
    resolvedSpelling "Foo" (c3Names.group "Foo") 1 = "Foo_" :=
  ⟨rfl, rfl, rfl⟩

/-- C3 (amended): resolved spellings are pairwise distinct inside each
raw-name group (the stable sort positions are distinct and `spell` is
injective); across different raw-name groups collisions remain possible,
as a declaration literally named `Foo_` colliding with the suffixed second
registration of `Foo` shows. -/
theorem c3_amended (token : String) (regs : List NameUsage) (i j : Nat)
    (hi : i < regs.length) (hj : j < regs.length) (hij : i ≠ j) :
    resolvedSpelling token regs i ≠ resolvedSpelling token regs j := by
  intro heq
  rw [resolvedSpelling, resolvedSpelling] at heq
  have hk := spell_injective token _ _ heq
  have hmemi : (i, regs.get ⟨i, hi⟩) ∈ sortRegs regs.enum :=
    mem_sortRegs_of_mem (mem_enum_of_get regs i _ (List.get?_eq_get hi))
  have hmemj : (j, regs.get ⟨j, hj⟩) ∈ sortRegs regs.enum :=
    mem_sortRegs_of_mem (mem_enum_of_get regs j _ (List.get?_eq_get hj))
  have hli : (sortRegs regs.enum).findIdx (fun r => decide (r.1 = i)) <
      (sortRegs regs.enum).length :=
    List.findIdx_lt_length_of_exists ⟨_, hmemi, by simp⟩
  have hlj : (sortRegs regs.enum).findIdx (fun r => decide (r.1 = j)) <
      (sortRegs regs.enum).length :=
    List.findIdx_lt_length_of_exists ⟨_, hmemj, by simp⟩
  have h1 := @List.findIdx_getElem _ (fun r => decide (r.1 = i)) (sortRegs regs.enum) hli
  have h2 := @List.findIdx_getElem _ (fun r => decide (r.1 = j)) (sortRegs regs.enum) hlj
  simp only [decide_eq_true_eq] at h1 h2
  obtain ⟨x1, hq1, hx1⟩ : ∃ x, (sortRegs regs.enum).get?
      ((sortRegs regs.enum).findIdx (fun r => decide (r.1 = i))) = some x ∧ x.1 = i :=
    ⟨_, List.get?_eq_get hli, h1⟩
  obtain ⟨x2, hq2, hx2⟩ : ∃ x, (sortRegs regs.enum).get?
      ((sortRegs regs.enum).findIdx (fun r => decide (r.1 = j))) = some x ∧ x.1 = j :=
    ⟨_, List.get?_eq_get hlj, h2⟩
  rw [hk, hq2] at hq1
  have hx12 : x1 = x2 := (Option.some.inj hq1).symm
  rw [hx12, hx2] at hx1
  exact hij hx1.symm

/-- C3 (amended) witness: the two import registrations of raw name `N`
resolve to distinct spellings. -/
theorem c3_amended_witness :
    resolvedSpelling "N" [NameUsage.imported, NameUsage.imported] 0 ≠
      resolvedSpelling "N" [NameUsage.imported, NameUsage.imported] 1 :=
  c3_amended "N" [NameUsage.imported, NameUsage.imported] 0 1
    (by decide) (by decide) (by decide)

/-- C4: counterexample. With no declaration named N and the imports of N
from sources a and b, the assigned spellings are `N` and `N_` in both
orders, but which source receives the raw spelling `N` follows the
registration order: registered first from a, source a resolves to `N`;
registered first from b, source a resolves to `N_`. -/
theorem c4_counterexample :
    bindingText c4EnvAB (BindingPlan.importedAt "kure:api:a" "N") = Except.ok "N" ∧
    bindingText c4EnvAB (BindingPlan.importedAt "kure:api:b" "N") = Except.ok "N_" ∧
    bindingText c4EnvBA (BindingPlan.importedAt "kure:api:a" "N") = Except.ok "N_" ∧
    bindingText c4EnvBA (BindingPlan.importedAt "kure:api:b" "N") = Except.ok "N" :=
  ⟨rfl, rfl, rfl, rfl⟩

/-- C4 (amended): in a raw-name group holding only import registrations
(no declaration), the registration with index i resolves to `spell` of i —
so two imports of N resolve to exactly `N` (first registered) and `N_`
(second registered); the pair of spellings is order-independent, but the
source-to-spelling assignment follows registration order. -/
theorem c4_amended (token : String) (regs : List NameUsage)
    (hall : ∀ u ∈ regs, u = NameUsage.imported) (i : Nat) (hi : i < regs.length) :
    resolvedSpelling token regs i = spell token i ∧
      spell token 0 = token ∧ spell token 1 = token ++ "_" := by
  refine ⟨?_, rfl, rfl⟩
  have hfilter0 : regs.enum.filter (fun r => decide (usageWeight r.2 = 0)) = [] := by
    rw [List.filter_eq_nil_iff]
    intro a ha
    rcases List.mem_enumFrom ha with ⟨_, _, hmem⟩
    have hin : a.2 ∈ regs := by rw [hmem]; exact List.getElem_mem _
    rw [hall a.2 hin]
    decide
  have hfilter1 : regs.enum.filter (fun r => decide (usageWeight r.2 ≠ 0)) = regs.enum := by
    rw [List.filter_eq_self]
    intro a ha
    rcases List.mem_enumFrom ha with ⟨_, _, hmem⟩
    have hin : a.2 ∈ regs := by rw [hmem]; exact List.getElem_mem _
    rw [hall a.2 hin]
    decide
  have hsorted : sortRegs regs.enum = regs.enum := by
    rw [sortRegs, hfilter0, hfilter1, List.nil_append]
  rw [resolvedSpelling, hsorted]
  have hlen : i < regs.enum.length := by
    rw [List.enum_length]
    exact hi
  have hfst : (regs.enum.get ⟨i, hlen⟩).1 = i := by
    show (regs.enum[i]).1 = i
    rw [List.getElem_enum]
  have hnodup : (regs.enum.map Prod.fst).Nodup := by
    rw [List.enum_map_fst]
    exact List.nodup_range regs.length
  have := findIdx_fst_of_nodup regs.enum hnodup i hlen
  rw [hfst] at this
  rw [this]

/-- C4 (amended) witness: the group of two import registrations resolves
index 0 to `N` and index 1 to `N_`. -/
theorem c4_amended_witness :
    resolvedSpelling "N" [NameUsage.imported, NameUsage.imported] 1 = spell "N" 1 ∧
      spell "N" 0 = "N" ∧ spell "N" 1 = "N" ++ "_" :=
  c4_amended "N" [NameUsage.imported, NameUsage.imported]
    (by decide) 1 (by decide)

/-! ## C5 — merging of repeated imports -/

theorem getOrInsert_of_found (ms : List (String × ImportedModule)) (src : ImportSource)
    (e0 : String × ImportedModule)
    (h : ms.find? (fun e => decide (e.1 = src.urn)) = some e0) :
    getOrInsertModule ms src = ms := by
  induction ms with
  | nil => cases h
  | cons hd t ih =>
    rw [getOrInsertModule]
    by_cases hk : hd.1 = src.urn
    · rw [if_pos hk]
    · rw [if_neg hk]
      have hdec : decide (hd.1 = src.urn) = false := by simpa using hk
      rw [List.find?_cons, hdec] at h
      rw [ih h]

theorem find?_update_found (ms : List (String × ImportedModule)) (urn : String)
    (f : List (String × ImportRec) → List (String × ImportRec))
    (e0 : String × ImportedModule)
    (h : ms.find? (fun e => decide (e.1 = urn)) = some e0) :
    (updateModuleMembers ms urn f).find? (fun e => decide (e.1 = urn)) =
      some (e0.1, ⟨e0.2.src, f e0.2.members⟩) := by
  induction ms with
  | nil => cases h
  | cons hd t ih =>
    rw [updateModuleMembers, List.map_cons]
    by_cases hk : hd.1 = urn
    · have hdec : decide (hd.1 = urn) = true := by simpa using hk
      rw [List.find?_cons, hdec] at h
      have h' : some hd = some e0 := h
      cases h'
      rw [if_pos hk, List.find?_cons]
      have hdec2 : decide ((e0.1, (⟨e0.2.src, f e0.2.members⟩ : ImportedModule)).1 = urn) = true := by
        simpa using hk
      rw [hdec2]
    · have hdec : decide (hd.1 = urn) = false := by simpa using hk
      rw [List.find?_cons, hdec] at h
      rw [if_neg hk, List.find?_cons, hdec]
      exact ih h

theorem find?_map_key {β : Type} (ms : List (String × β)) (name : String)
    (g : β → β) (p : String × β)
    (h : ms.find? (fun m => decide (m.1 = name)) = some p) :
    (ms.map (fun e => if e.1 = name then (e.1, g e.2) else e)).find?
      (fun m => decide (m.1 = name)) = some (p.1, g p.2) := by
  induction ms with
  | nil => cases h
  | cons hd t ih =>
    rw [List.map_cons]
    by_cases hk : hd.1 = name
    · have hdec : decide (hd.1 = name) = true := by simpa using hk
      rw [List.find?_cons, hdec] at h
      have h' : some hd = some p := h
      cases h'
      rw [if_pos hk, List.find?_cons]
      have hdec2 : decide ((p.1, g p.2).1 = name) = true := by simpa using hk
      rw [hdec2]
    · have hdec : decide (hd.1 = name) = false := by simpa using hk
      rw [List.find?_cons, hdec] at h
      rw [if_neg hk, List.find?_cons, hdec]
      exact ih h

theorem findMemberIn_update (ms : List (String × ImportedModule)) (urn name : String)
    (g : ImportRec → ImportRec) (e : String × ImportedModule) (p : String × ImportRec)
    (hfm : ms.find? (fun x => decide (x.1 = urn)) = some e)
    (hfe : e.2.members.find? (fun m => decide (m.1 = name)) = some p) :
    findMemberIn (updateModuleMembers ms urn
        (fun l => l.map (fun x => if x.1 = name then (x.1, g x.2) else x))) urn name =
      some (p.1, g p.2) := by
  rw [findMemberIn]
  rw [find?_update_found ms urn _ e hfm]
  exact find?_map_key e.2.members name g p hfe

theorem mergeImportRec_eq (r : ImportRec) (o : ImportOptions) :
    mergeImportRec r o =
      ⟨r.member, if r.asName = none then strTruthy o.asName else r.asName,
        r.typeOnly && (o.typeOnly.getD false)⟩ := by
  rcases r with ⟨m, a, t⟩
  cases t <;> cases hob : o.typeOnly.getD false <;> cases a <;>
    cases ha : strTruthy o.asName <;>
    simp [mergeImportRec, hob, ha]

/-- C5 (amended): `use(source, member, options)` keys on the stable
(source URN, member) pair; a repeated call with no options argument leaves
the table unchanged (so a bare value-requiring call does not downgrade a
type-only import), and a repeated call with options merges: type-only is
cleared exactly when the new options do not request type-only, and the
alias is sticky on its first (truthy) assignment. -/
theorem c5_amended (st : Imports) (src : ImportSource) (name : String) (r : ImportRec)
    (hmem : st.member src.urn name = some r) :
    st.use src name none = st ∧
    ∀ o : ImportOptions, (st.use src name (some o)).member src.urn name =
      some ⟨r.member, if r.asName = none then strTruthy o.asName else r.asName,
        r.typeOnly && (o.typeOnly.getD false)⟩ := by
  rw [Imports.member] at hmem
  cases hfi : findMemberIn st.modules src.urn name with
  | none => rw [hfi] at hmem; cases hmem
  | some p =>
    rw [hfi] at hmem
    have hp2 : p.2 = r := by
      have hh : some p.2 = some r := hmem
      cases hh
      rfl
    rw [findMemberIn] at hfi
    cases hfm : st.modules.find? (fun e => decide (e.1 = src.urn)) with
    | none => rw [hfm] at hfi; cases hfi
    | some e =>
      rw [hfm] at hfi
      have hfe : e.2.members.find? (fun m => decide (m.1 = name)) = some p := hfi
      have hmods : getOrInsertModule st.modules src = st.modules :=
        getOrInsert_of_found st.modules src e hfm
      have hfi2 : findMemberIn st.modules src.urn name = some p := by
        rw [findMemberIn, hfm]
        exact hfe
      constructor
      · show Imports.use st src name none = st
        simp only [Imports.use]
        rw [hmods, hfi2]
      · intro o
        simp only [Imports.use]
        rw [hmods, hfi2]
        rw [Imports.member]
        rw [findMemberIn_update st.modules src.urn name (fun x => mergeImportRec x o) e p hfm hfe]
        rw [mergeImportRec_eq, hp2]
        rfl

/-- C5: counterexample. A later `use(source, member)` call without an
options object is value-requiring (a fresh import so created would be a
value import), yet it performs no merge at all: the prior type-only
entry stays type-only instead of being downgraded. -/
theorem c5_counterexample :
    c5St2 = c5St1 ∧
    Imports.member c5St2 "kure:api:pkg" "x" =
      some ⟨"x", none, true⟩ :=
  ⟨rfl, rfl⟩

/-- C5 (amended) witness: the merge rules at the concrete one-member
table. -/
theorem c5_amended_witness :
    Imports.use c5St1 c5Src "x" none = c5St1 ∧
    ∀ o : ImportOptions, (c5St1.use c5Src "x" (some o)).member c5Src.urn "x" =
      some ⟨"x", if (none : Option String) = none then strTruthy o.asName else none,
        true && (o.typeOnly.getD false)⟩ :=
  c5_amended c5St1 c5Src "x" ⟨"x", none, true⟩ rfl

/-! ## C6 — shape of the rendered import block -/

/-- C6: counterexample. The statement for the generator's own lib:schema
imports (`resourceBase` imports `factory` as a value and `NameScope`
type-only) renders `factory` before `NameScope`, because `localeCompare`
(ICU root collation) compares base letters case-insensitively at primary
strength — although lexicographically (code-point order) `NameScope`
strictly precedes `factory`. The members of a statement are therefore
not sorted lexicographically. -/
theorem c6_counterexample :
    renderImportsBlock c6cImps c6cEnv ⟨⟨none, none⟩, "v1", [], "v1.ts", Engine.deno⟩ =
      Except.ok
        "import \x7b factory, type NameScope \x7d from \"https://kure.sh/lib/schema@0.1/mod.ts\";" ∧
    strLe "NameScope" "factory" = true ∧
    strLe "factory" "NameScope" = false :=
  ⟨rfl, rfl, rfl⟩

/-- C6 (amended): the import block groups statements into a remote bucket
followed by a local bucket (so every remote statement precedes every
local one, whatever the registration order was), sorts each bucket by
resolved path and the members of one statement in the ICU root-collation
order that `localeCompare` computes (`localeLe` — not code-point
lexicographic order), renders a statement as `import type` exactly when
every member of that source is still type-only at resolve time, and
annotates still-type-only members of a value statement with an inline
`type` marker. -/
theorem c6_amended (imps : Imports) (env : RenderEnv) (ctx : Context) :
    (∀ g ∈ importGroups imps (importPaths imps ctx),
      g.Pairwise (fun a b =>
        localeLe (pathOfUrn (importPaths imps ctx) a) (pathOfUrn (importPaths imps ctx) b) = true)) ∧
    (∃ remote locals,
      importGroups imps (importPaths imps ctx) =
        ([remote, locals].filter (fun g => g.length ≠ 0)).map
          (fun g => sortLe (fun a b =>
            localeLe (pathOfUrn (importPaths imps ctx) a) (pathOfUrn (importPaths imps ctx) b)) g) ∧
      (∀ u ∈ remote, ∃ e ∈ imps.modules, e.1 = u ∧ e.2.src.isLoc = false) ∧
      (∀ u ∈ locals, ∃ e ∈ imps.modules, e.1 = u ∧ e.2.src.isLoc = true)) ∧
    (∀ m : ImportedModule,
      (statementMembers m).Pairwise (fun a b => localeLe a.member b.member = true) ∧
      (∀ x, x ∈ statementMembers m ↔ x ∈ m.members.map (fun e => e.2))) ∧
    (∀ urn (m : ImportedModule) path s,
      renderStatement env urn m path = Except.ok s →
        ((statementMembers m).all (fun i => i.typeOnly) = true →
          ∃ t, s = "import type \x7b " ++ t) ∧
        ((statementMembers m).all (fun i => i.typeOnly) = false →
          ∃ t, s = "import \x7b " ++ t)) ∧
    (∀ urn (r : ImportRec) s, r.typeOnly = true →
      renderImportEntry env urn r false = Except.ok s →
        ∃ t, s = "type " ++ t) := by
  have htr : ∀ a b c, localeLe (pathOfUrn (importPaths imps ctx) a) (pathOfUrn (importPaths imps ctx) b) = true →
      localeLe (pathOfUrn (importPaths imps ctx) b) (pathOfUrn (importPaths imps ctx) c) = true →
      localeLe (pathOfUrn (importPaths imps ctx) a) (pathOfUrn (importPaths imps ctx) c) = true :=
    fun a b c hab hbc => localeLe_trans _ _ _ hab hbc
  have hto : ∀ a b, localeLe (pathOfUrn (importPaths imps ctx) a) (pathOfUrn (importPaths imps ctx) b) = true ∨
      localeLe (pathOfUrn (importPaths imps ctx) b) (pathOfUrn (importPaths imps ctx) a) = true :=
    fun a b => localeLe_total _ _
  refine ⟨?_, ?_, ?_, ?_, ?_⟩
  · intro g hg
    rw [importGroups] at hg
    rcases List.mem_map.mp hg with ⟨g0, _, rfl⟩
    exact pairwise_sortLe _ htr hto g0
  · refine ⟨(imps.modules.filter (fun e => !e.2.src.isLoc)).map (fun e => e.1),
      (imps.modules.filter (fun e => e.2.src.isLoc)).map (fun e => e.1), ?_, ?_, ?_⟩
    · rfl
    · intro u hu
      rcases List.mem_map.mp hu with ⟨e, he, rfl⟩
      have hf := List.mem_filter.mp he
      exact ⟨e, hf.1, rfl, by simpa using hf.2⟩
    · intro u hu
      rcases List.mem_map.mp hu with ⟨e, he, rfl⟩
      have hf := List.mem_filter.mp he
      exact ⟨e, hf.1, rfl, hf.2⟩
  · intro m
    constructor
    · exact pairwise_sortLe (fun a b : ImportRec => localeLe a.member b.member)
        (fun a b c hab hbc => localeLe_trans a.member b.member c.member hab hbc)
        (fun a b => localeLe_total a.member b.member) (m.members.map (fun e => e.2))
    · intro x
      exact mem_sortLe _ x _
  · intro urn m path s hs
    rw [renderStatement] at hs
    constructor
    · intro hall
      rw [hall] at hs
      cases hE : renderEntries env urn (statementMembers m) true with
      | error e =>
        rw [hE, exceptBindErr] at hs
        cases hs
      | ok entries =>
        rw [hE, exceptBindOk] at hs
        have hs' : (Except.ok (("import type \x7b " ++ String.intercalate ", " entries ++ " \x7d") ++
            " from " ++ jsonStr path ++ ";") : Except String String) = Except.ok s := by
          simpa using hs
        cases hs'
        exact ⟨String.intercalate ", " entries ++ " \x7d" ++ " from " ++ jsonStr path ++ ";", by
          simp [String.append_assoc]⟩
    · intro hall
      rw [hall] at hs
      cases hE : renderEntries env urn (statementMembers m) false with
      | error e =>
        rw [hE, exceptBindErr] at hs
        cases hs
      | ok entries =>
        rw [hE, exceptBindOk] at hs
        have hs' : (Except.ok (("import \x7b " ++ String.intercalate ", " entries ++ " \x7d") ++
            " from " ++ jsonStr path ++ ";") : Except String String) = Except.ok s := by
          simpa using hs
        cases hs'
        exact ⟨String.intercalate ", " entries ++ " \x7d" ++ " from " ++ jsonStr path ++ ";", by
          simp [String.append_assoc]⟩
  · intro urn r s htype hs
    rw [renderImportEntry] at hs
    have hfalse : (false && !r.typeOnly) = false := rfl
    rw [hfalse] at hs
    simp only [Bool.false_eq_true, if_false] at hs
    cases hB : bindingText env (BindingPlan.importedAt urn r.member) with
    | error e =>
      rw [hB, exceptBindErr] at hs
      cases hs
    | ok tok =>
      rw [hB, exceptBindOk] at hs
      rw [htype] at hs
      have hs' : (Except.ok ("type " ++ (if tok = r.member then tok else r.member ++ " as " ++ tok)) :
          Except String String) = Except.ok s := by
        simpa using hs
      cases hs'
      exact ⟨(if tok = r.member then tok else r.member ++ " as " ++ tok), rfl⟩

/-- C6 (amended) witness: the statement of the all-type-only remote
source renders as an `import type` statement. -/
theorem c6_amended_witness :
    (((statementMembers c6RemMod).all (fun i => i.typeOnly) = true →
        ∃ t, "import type \x7b Rem \x7d from \"p\";" = "import type \x7b " ++ t) ∧
      ((statementMembers c6RemMod).all (fun i => i.typeOnly) = false →
        ∃ t, "import type \x7b Rem \x7d from \"p\";" = "import \x7b " ++ t)) :=
  (c6_amended c6Imps c6Env ⟨⟨none, none⟩, "v1", [], "v1.ts", Engine.deno⟩).2.2.2.1
    "kure:api:k" c6RemMod "p" "import type \x7b Rem \x7d from \"p\";" rfl

/-- C8: counterexample. With a kubernetes version in the dependency map,
the deno path for an "api" import of package kubernetes keeps the version
and drops the package name — `https://kure.sh/api/@1.30/mod.ts` — which is
not the unversioned bare form the claim describes. -/
theorem c8_counterexample :
    srcPath (ImportSource.api "kubernetes" none) c8Ctx =
      "https://kure.sh/api/@1.30/mod.ts" ∧
    "https://kure.sh/api/@1.30/mod.ts" ≠ "https://kure.sh/api/kubernetes/mod.ts" :=
  ⟨rfl, by decide⟩

/-- C8 (amended): under the deno engine an "api" import takes its version
from the dependency map by package name; the sentinel package kubernetes
is special-cased by dropping the package name when a (truthy) version is
present — producing `api/@<version>/...` — while with no dependency entry
the path is the bare unversioned `api/kubernetes/...` form (no error: the
package is treated as always available). -/
theorem c8_amended (pkg : String) (path : Option String) (ctx : Context)
    (heng : ctx.engine = Engine.deno) :
    (∀ dep, lookupDep ctx.dependencies "kubernetes" = some dep → dep.version ≠ "" →
      srcPath (ImportSource.api "kubernetes" path) ctx =
        "https://kure.sh/api/" ++ ("@" ++ dep.version) ++ "/" ++
          ((strTruthy path).getD "mod.ts")) ∧
    (lookupDep ctx.dependencies "kubernetes" = none →
      srcPath (ImportSource.api "kubernetes" path) ctx =
        "https://kure.sh/api/" ++ "kubernetes" ++ "/" ++ ((strTruthy path).getD "mod.ts")) ∧
    (∀ dep, pkg ≠ "kubernetes" → lookupDep ctx.dependencies pkg = some dep →
      dep.version ≠ "" →
      srcPath (ImportSource.api pkg path) ctx =
        "https://kure.sh/api/" ++ (pkg ++ ("@" ++ dep.version)) ++ "/" ++
          ((strTruthy path).getD "mod.ts")) := by
  have emptyAppend : ∀ s : String, "" ++ s = s := fun s => strDataInj rfl
  have appendEmpty : ∀ s : String, s ++ "" = s := fun s =>
    strDataInj (by rw [strDataAppend]; simp)
  rcases ctx with ⟨g, v, deps, mp, eng⟩
  simp only at heng
  subst heng
  refine ⟨?_, ?_, ?_⟩
  · intro dep hdep hv
    simp only [srcPath, hdep]
    simp [strTruthy, hv, emptyAppend]
  · intro hdep
    simp only [srcPath, hdep]
    simp [strTruthy, appendEmpty]
  · intro dep hne hdep hv
    simp only [srcPath, hdep]
    simp [strTruthy, hv, hne]

/-- C8 (amended) witness: the three path shapes at concrete inputs. -/
theorem c8_amended_witness :
    (∀ dep, lookupDep c8Ctx.dependencies "kubernetes" = some dep → dep.version ≠ "" →
      srcPath (ImportSource.api "kubernetes" none) c8Ctx =
        "https://kure.sh/api/" ++ ("@" ++ dep.version) ++ "/" ++
          ((strTruthy none).getD "mod.ts")) ∧
    (lookupDep c8Ctx.dependencies "kubernetes" = none →
      srcPath (ImportSource.api "kubernetes" none) c8Ctx =
        "https://kure.sh/api/" ++ "kubernetes" ++ "/" ++ ((strTruthy none).getD "mod.ts")) ∧
    (∀ dep, "other" ≠ "kubernetes" → lookupDep c8Ctx.dependencies "other" = some dep →
      dep.version ≠ "" →
      srcPath (ImportSource.api "other" none) c8Ctx =
        "https://kure.sh/api/" ++ ("other" ++ ("@" ++ dep.version)) ++ "/" ++
          ((strTruthy none).getD "mod.ts")) :=
  c8_amended "other" none c8Ctx rfl

/-! ## C7 — resource definitions without a metadata reference -/

theorem checkDefinitions_err_of_mem (defs : List Definition) (d : Definition)
    (hmem : d ∈ defs) (herr : (checkDefinition d).isOk = false) :
    (checkDefinitions defs).isOk = false := by
  induction defs with
  | nil => cases hmem
  | cons x rest ih =>
    rw [checkDefinitions]
    cases hx : checkDefinition x with
    | error e =>
      rw [exceptBindErr]
      rfl
    | ok u =>
      rw [exceptBindOk]
      rcases List.mem_cons.mp hmem with rfl | hrest
      · rw [hx] at herr
        exact absurd herr (by simp [Except.isOk, Except.toBool])
      · exact ih hrest

theorem checkDefinition_resource_err (d : Definition) (props : List SchemaProperty)
    (scope : String) (hval : d.value = SchemaType.resource props scope)
    (hno : ∀ p ∈ props, ¬(p.name = "metadata" ∧ isRefVal p.value = true)) :
    (checkDefinition d).isOk = false := by
  rcases d with ⟨dn, dm, dv⟩
  have hval2 : dv = SchemaType.resource props scope := hval
  subst hval2
  have hred : checkDefinition ⟨dn, dm, SchemaType.resource props scope⟩ =
      (match props.find? (fun p => decide (p.name = "metadata")) with
      | none => Except.error (dn ++ ": expected metadata reference property")
      | some mp =>
        if isRefVal mp.value then checkProps (removeFirstMeta props)
        else Except.error (dn ++ ": expected metadata reference property")) := rfl
  rw [hred]
  cases hfind : props.find? (fun p => decide (p.name = "metadata")) with
  | none => rfl
  | some mp =>
    have hpmem : mp ∈ props := List.mem_of_find?_eq_some hfind
    have hpname : mp.name = "metadata" := by simpa using List.find?_some hfind
    have hnref : ¬ isRefVal mp.value = true := fun h => hno mp hpmem ⟨hpname, h⟩
    show (if isRefVal mp.value = true then checkProps (removeFirstMeta props)
      else Except.error (dn ++ ": expected metadata reference property")).isOk = false
    rw [if_neg hnref]
    rfl

/-- C7: a schema containing a resource definition with no top-level
property that is literally named "metadata" and holds a reference type
fails generation (either in resourceBase for the first resource or in
gen.resource when the definition generator is built) and produces no
output text. -/
theorem c7_resource_metadata (schema : APIGroupVersion) (engine : Engine)
    (d : Definition) (props : List SchemaProperty) (scope : String)
    (hmem : d ∈ schema.definitions) (hval : d.value = SchemaType.resource props scope)
    (hno : ∀ p ∈ props, ¬(p.name = "metadata" ∧ isRefVal p.value = true)) :
    (emitVersion schema engine).isOk = false := by
  have hcd : (checkDefinition d).isOk = false :=
    checkDefinition_resource_err d props scope hval hno
  have hcds : (checkDefinitions schema.definitions).isOk = false :=
    checkDefinitions_err_of_mem schema.definitions d hmem hcd
  obtain ⟨e, he⟩ := existsErrOfIsOkFalse _ hcds
  cases hrb : resourceBaseCheck schema.definitions with
  | error e2 =>
    simp only [emitVersion, hrb, exceptBindErr]
    rfl
  | ok mt =>
    simp only [emitVersion, hrb, exceptBindOk, he, exceptBindErr]
    rfl

/-- C7 witness: the concrete schema fails generation. -/
theorem c7_resource_metadata_witness : (emitVersion c7Schema Engine.deno).isOk = false :=
  c7_resource_metadata c7Schema Engine.deno
    ⟨"Bad", ⟨none, false⟩, SchemaType.resource
      [SchemaProperty.mk "metadata" true (SchemaType.string none) ⟨none, false⟩]
      "namespace"⟩
    [SchemaProperty.mk "metadata" true (SchemaType.string none) ⟨none, false⟩]
    "namespace" (List.mem_cons_self _ _) rfl (by decide)

/-! ## C10 — the synthetic APIVersion identifiers -/

theorem bindOkInv {ε α β : Type} (x : Except ε α) (f : α → Except ε β) (b : β)
    (h : (x >>= f) = Except.ok b) : ∃ a, x = Except.ok a ∧ f a = Except.ok b := by
  cases x with
  | ok a => exact ⟨a, rfl, h⟩
  | error e => exact Except.noConfusion h

theorem bindIsOkFalse {ε α β : Type} (x : Except ε α) (f : α → Except ε β)
    (h : x.isOk = false) : (x >>= f).isOk = false := by
  cases x with
  | ok a => exact absurd h (by simp [Except.isOk, Except.toBool])
  | error e => rfl

theorem group_addToBound (b : List (String × List NameUsage)) (t : String)
    (u : NameUsage) (tok : String) :
    Names.group ⟨addToBound b t u⟩ tok =
      if tok = t then Names.group ⟨b⟩ tok ++ [u] else Names.group ⟨b⟩ tok := by
  induction b with
  | nil =>
    by_cases htk : tok = t
    · subst htk
      rw [if_pos rfl]
      show Names.group ⟨[(tok, [u])]⟩ tok = Names.group ⟨[]⟩ tok ++ [u]
      rw [Names.group, Names.group, List.find?_cons]
      have hd1 : decide ((tok, [u]).1 = tok) = true := by simp
      rw [hd1]
      rfl
    · rw [if_neg htk]
      show Names.group ⟨[(t, [u])]⟩ tok = Names.group ⟨[]⟩ tok
      rw [Names.group, Names.group, List.find?_cons]
      have hd1 : decide ((t, [u]).1 = tok) = false := by
        simp
        intro he
        exact absurd he.symm htk
      rw [hd1]
  | cons e rest ih =>
    show Names.group ⟨if e.1 = t then (e.1, e.2 ++ [u]) :: rest
      else e :: addToBound rest t u⟩ tok = _
    by_cases htok : e.1 = tok
    · have h2 : decide (e.1 = tok) = true := by simpa using htok
      by_cases het : e.1 = t
      · rw [if_pos het]
        have htt : tok = t := by rw [← htok, het]
        rw [if_pos htt]
        show Names.group ⟨(e.1, e.2 ++ [u]) :: rest⟩ tok = Names.group ⟨e :: rest⟩ tok ++ [u]
        rw [Names.group, Names.group, List.find?_cons, List.find?_cons, h2]
      · rw [if_neg het]
        have htt : ¬ tok = t := fun he => het (by rw [htok, he])
        rw [if_neg htt]
        show Names.group ⟨e :: addToBound rest t u⟩ tok = Names.group ⟨e :: rest⟩ tok
        rw [Names.group, Names.group, List.find?_cons, List.find?_cons, h2]
    · have h2 : decide (e.1 = tok) = false := by simpa using htok
      by_cases het : e.1 = t
      · rw [if_pos het]
        have htt : ¬ tok = t := fun he => htok (by rw [het, he])
        rw [if_neg htt]
        show Names.group ⟨(e.1, e.2 ++ [u]) :: rest⟩ tok = Names.group ⟨e :: rest⟩ tok
        rw [Names.group, Names.group, List.find?_cons, List.find?_cons, h2]
      · rw [if_neg het]
        have hstep : Names.group ⟨e :: addToBound rest t u⟩ tok =
            Names.group ⟨addToBound rest t u⟩ tok := by
          rw [Names.group, Names.group, List.find?_cons, h2]
        have hstep2 : Names.group ⟨e :: rest⟩ tok = Names.group ⟨rest⟩ tok := by
          rw [Names.group, Names.group, List.find?_cons, h2]
        rw [hstep, hstep2]
        exact ih

theorem hasDecl_addToBound (b : List (String × List NameUsage)) (t : String)
    (u : NameUsage) (tok : String) (h : Names.hasDecl ⟨b⟩ tok = true) :
    Names.hasDecl ⟨addToBound b t u⟩ tok = true := by
  rw [Names.hasDecl, group_addToBound]
  rw [Names.hasDecl] at h
  by_cases htt : tok = t
  · rw [if_pos htt, List.any_append, h]
    rfl
  · rw [if_neg htt]
    exact h

theorem add_preserves (ns ns' : Names) (t : String) (u : NameUsage) (k : Nat)
    (h : ns.add t u = Except.ok (ns', k)) (tok : String)
    (hd : ns.hasDecl tok = true) : ns'.hasDecl tok = true := by
  rw [Names.add] at h
  by_cases hc : ((ns.group t).any (fun existing => usageConflict existing u)) = true
  · rw [if_pos hc] at h
    exact Except.noConfusion h
  · rw [if_neg hc] at h
    have h' : ns' = ⟨addToBound ns.bound t u⟩ := by
      cases h
      rfl
    rw [h']
    exact hasDecl_addToBound ns.bound t u tok hd

theorem add_conflict (ns : Names) (tok : String) (h : ns.hasDecl tok = true) :
    (ns.add tok NameUsage.declaration).isOk = false := by
  rw [Names.hasDecl, List.any_eq_true] at h
  obtain ⟨x, hx, hdx⟩ := h
  have hx' : x = NameUsage.declaration := by simpa using hdx
  subst hx'
  have hany : ((ns.group tok).any
      (fun existing => usageConflict existing NameUsage.declaration)) = true :=
    List.any_eq_true.mpr ⟨_, hx, by rfl⟩
  rw [Names.add, if_pos hany]
  rfl

theorem applyDefinition_err (d : Definition) (st : Names × Imports)
    (hd : st.1.hasDecl d.name = true)
    (href : ∀ tgt, d.value = SchemaType.reference tgt → d.name ≠ tgt.name) :
    (applyDefinition d st).isOk = false := by
  rcases d with ⟨dn, dm, dv⟩
  have hd' : st.1.hasDecl dn = true := hd
  cases dv
  case resource props scope =>
    simp only [applyDefinition]
    split
    · rfl
    · split
      · exact bindIsOkFalse _ _ (add_conflict st.1 dn hd')
      · rfl
  case reference tgt =>
    have hne : dn ≠ tgt.name := href tgt rfl
    simp only [applyDefinition]
    rw [if_neg hne]
    exact bindIsOkFalse _ _ (add_conflict st.1 dn hd')
  all_goals exact bindIsOkFalse _ _ (add_conflict st.1 dn hd')

theorem applyMember_preserves (m : ModuleMember) (st : Names × Imports)
    (r : (Names × Imports) × MemberPlan) (h : applyMember m st = Except.ok r)
    (tok : String) (hd : st.1.hasDecl tok = true) : r.1.1.hasDecl tok = true := by
  cases m with
  | apiVersionMember =>
    obtain ⟨r1, hr1, h2⟩ := bindOkInv _ _ _ h
    obtain ⟨r2, hr2, h3⟩ := bindOkInv _ _ _ h2
    cases Except.ok.inj h3
    exact add_preserves r1.1 r2.1 "apiVersion" NameUsage.declaration r2.2 (by rw [hr2]) tok
      (add_preserves st.1 r1.1 "APIVersion" NameUsage.declaration r1.2 (by rw [hr1]) tok hd)
  | resourceBaseMember tgt =>
    obtain ⟨r1, hr1, h2⟩ := bindOkInv _ _ _ h
    cases Except.ok.inj h2
    exact add_preserves st.1 r1.1 "Resource" NameUsage.declaration r1.2 (by rw [hr1]) tok hd
  | defMember d =>
    rcases d with ⟨dn, dm, dv⟩
    cases dv
    case resource props scope =>
      simp only [applyMember, applyDefinition] at h
      cases hfind : props.find? (fun p => decide (p.name = "metadata")) with
      | none =>
        rw [hfind] at h
        exact Except.noConfusion h
      | some mp =>
        rw [hfind] at h
        dsimp only at h
        split at h
        · obtain ⟨r1, hr1, h2⟩ := bindOkInv _ _ _ h
          obtain ⟨r2, hr2, h3⟩ := bindOkInv _ _ _ h2
          obtain ⟨ro, hro, h4⟩ := bindOkInv _ _ _ h3
          cases Except.ok.inj h4
          exact add_preserves r1.1 r2.1 (dn ++ "List") NameUsage.declaration r2.2 (by rw [hr2])
            tok (add_preserves st.1 r1.1 dn NameUsage.declaration r1.2 (by rw [hr1]) tok hd)
        · exact Except.noConfusion h
    case reference tgt =>
      simp only [applyMember, applyDefinition] at h
      split at h
      · cases Except.ok.inj h
        exact hd
      · obtain ⟨r1, hr1, h2⟩ := bindOkInv _ _ _ h
        cases Except.ok.inj h2
        exact add_preserves st.1 r1.1 dn NameUsage.declaration r1.2 (by rw [hr1]) tok hd
    all_goals
      obtain ⟨r1, hr1, h2⟩ := bindOkInv _ _ _ h
      obtain ⟨ro, hro, h3⟩ := bindOkInv _ _ _ h2
      cases Except.ok.inj h3
      exact add_preserves st.1 r1.1 dn NameUsage.declaration r1.2 (by rw [hr1]) tok hd

theorem applyMembers_err (ms : List ModuleMember) (st : Names × Imports) (d : Definition)
    (hd : st.1.hasDecl d.name = true)
    (hmem : ModuleMember.defMember d ∈ ms)
    (href : ∀ tgt, d.value = SchemaType.reference tgt → d.name ≠ tgt.name) :
    (applyMembers ms st).isOk = false := by
  induction ms generalizing st with
  | nil => cases hmem
  | cons m rest ih =>
    have hred : applyMembers (m :: rest) st = (applyMember m st >>= fun r =>
        (applyMembers rest r.1 >>= fun rs => Except.ok (rs.1, r.2 :: rs.2))) := rfl
    rw [hred]
    cases hm : applyMember m st with
    | error e => exact bindIsOkFalse _ _ rfl
    | ok r =>
      rw [exceptBindOk]
      rcases List.mem_cons.mp hmem with heq | hrest
      · exfalso
        rw [← heq] at hm
        have herr := applyDefinition_err d st hd href
        rw [show applyMember (ModuleMember.defMember d) st = applyDefinition d st from rfl] at hm
        rw [hm] at herr
        exact absurd herr (by simp [Except.isOk, Except.toBool])
      · exact bindIsOkFalse _ _
          (ih r.1 (applyMember_preserves m st r hm d.name hd) hrest)

/-- C10: counterexample. A Definition named APIVersion whose value is a
reference to a same-named remote target registers no declaration at all
(gen.definition skips module.name when the names coincide), so generation
succeeds — the synthetic APIVersion identifiers stay and the import is
renamed to `APIVersion_` instead of any duplicate-declaration failure. -/
theorem c10_counterexample :
    (∃ d ∈ c10Schema.definitions, d.name = "APIVersion") ∧
    (emitVersion c10Schema Engine.deno).isOk = true :=
  ⟨⟨⟨"APIVersion", ⟨none, false⟩,
      SchemaType.reference ⟨some ⟨⟨none, none⟩, "v1", some "other"⟩, "APIVersion"⟩⟩,
    List.mem_cons_self _ _, rfl⟩, rfl⟩

theorem applyMembers_head_err (rest : List ModuleMember) (d : Definition)
    (hmem : ModuleMember.defMember d ∈ rest)
    (hname : d.name = "APIVersion" ∨ d.name = "apiVersion")
    (href : ∀ tgt, d.value = SchemaType.reference tgt → d.name ≠ tgt.name) :
    (applyMembers (ModuleMember.apiVersionMember :: rest)
      ((⟨[]⟩ : Names), (⟨[]⟩ : Imports))).isOk = false := by
  have hred : applyMembers (ModuleMember.apiVersionMember :: rest)
      ((⟨[]⟩ : Names), (⟨[]⟩ : Imports)) =
      (applyMember ModuleMember.apiVersionMember ((⟨[]⟩ : Names), (⟨[]⟩ : Imports)) >>=
        fun r => (applyMembers rest r.1 >>= fun rs => Except.ok (rs.1, r.2 :: rs.2))) := rfl
  rw [hred]
  have hA : applyMember ModuleMember.apiVersionMember
      ((⟨[]⟩ : Names), (⟨[]⟩ : Imports)) =
      Except.ok ((((⟨[("APIVersion", [NameUsage.declaration]),
        ("apiVersion", [NameUsage.declaration])]⟩ : Names), (⟨[]⟩ : Imports))),
        MemberPlan.apiVersionP (BindingPlan.nameAt "APIVersion" 0)
          (BindingPlan.nameAt "apiVersion" 0)) := rfl
  rw [hA, exceptBindOk]
  apply bindIsOkFalse
  apply applyMembers_err _ _ d _ hmem href
  rcases hname with h | h <;> rw [h] <;> rfl

/-- C10 (amended): the synthetic APIVersion member always registers the
identifiers APIVersion and apiVersion as declarations, so a schema with a
definition that registers a declaration under either name — any definition
named APIVersion or apiVersion except a reference re-export whose target
has the same name, which registers nothing — fails generation with the
fatal duplicate-declaration error rather than renaming either identifier. -/
theorem c10_amended (schema : APIGroupVersion) (engine : Engine) (d : Definition)
    (hmem : d ∈ schema.definitions)
    (hname : d.name = "APIVersion" ∨ d.name = "apiVersion")
    (href : ∀ tgt, d.value = SchemaType.reference tgt → d.name ≠ tgt.name) :
    (emitVersion schema engine).isOk = false := by
  cases hrb : resourceBaseCheck schema.definitions with
  | error e =>
    simp only [emitVersion, hrb, exceptBindErr]
    rfl
  | ok mt =>
    cases hcd : checkDefinitions schema.definitions with
    | error e =>
      simp only [emitVersion, hrb, exceptBindOk, hcd, exceptBindErr]
      rfl
    | ok u =>
      have hAM : (applyMembers (moduleMembers schema.definitions mt)
          ((⟨[]⟩ : Names), (⟨[]⟩ : Imports))).isOk = false := by
        cases mt with
        | none =>
          have hcons : moduleMembers schema.definitions none =
              ModuleMember.apiVersionMember ::
                ([] ++ schema.definitions.map ModuleMember.defMember) := rfl
          rw [hcons]
          exact applyMembers_head_err _ d
            (List.mem_append_right _ (List.mem_map_of_mem _ hmem)) hname href
        | some t =>
          have hcons : moduleMembers schema.definitions (some t) =
              ModuleMember.apiVersionMember ::
                ([ModuleMember.resourceBaseMember t] ++
                  schema.definitions.map ModuleMember.defMember) := rfl
          rw [hcons]
          exact applyMembers_head_err _ d
            (List.mem_append_right _ (List.mem_map_of_mem _ hmem)) hname href
      obtain ⟨e, he⟩ := existsErrOfIsOkFalse _ hAM
      simp only [emitVersion, hrb, exceptBindOk, hcd, he, exceptBindErr]
      rfl

/-- C10 (amended) witness: the alias named APIVersion fails generation. -/
theorem c10_amended_witness : (emitVersion c10BadSchema Engine.deno).isOk = false :=
  c10_amended c10BadSchema Engine.deno
    ⟨"APIVersion", ⟨none, false⟩, SchemaType.string none⟩
    (List.mem_cons_self _ _) (Or.inl rfl)
    (fun _ h => SchemaType.noConfusion h)
